import Mathlib

/-!
# Verification of the BOM reconciliation engine (`bom.py`)

A shallow embedding of the core data-processing routines of `bom.py`
(`BOMProcessor.match_data`, `BOMProcessor.clean_data`, the grouped-sheet
materialization inside `BOMProcessor.option2_excel_with_charts`, and the
cross-sheet validation inside `BOMProcessor.option3_validate_json`),
together with theorems settling the specification's claims about them.

Modelling conventions:
* A pandas cell value is `Value`: the missing sentinel `NaN` (`Value.null`),
  a string, or an integer.  Integer-valued numeric cells (the kind produced
  by `pd.read_excel(..., keep_default_na=False)` on the relevant columns and
  by `clean_data`'s own integer coercion) are modelled by `Value.int`;
  non-integral floats and datetimes are outside the modelled universe, so
  the corresponding branches of `clean_data`'s type-canonicalization lambda
  are unreachable here.
* Python strings are Lean `String`s; the Python string primitives the code
  uses (`strip`, `lower`, `upper`, `isdigit`, `replace` of a single
  character, `in`, `str()` of an int, `%03d` formatting, `float()` parsing
  without exponent forms) are defined below from scratch so that every step
  is explicit.  `str.strip()` / `float()` whitespace handling uses the ASCII
  whitespace characters; Unicode-only spaces are not modelled.
* A DataFrame is a `Frame`: a column-name list and positionally indexed
  rows.  After `pd.DataFrame(results)` the index is a contiguous
  `RangeIndex`, so pandas row labels coincide with positions, which is how
  `option2` uses them (`excel_row_num = original_idx + 2`).
* A Python `dict` (a `Series.to_dict()` row record) is an association list
  with unique keys, built by insertion with Python's update-in-place /
  append-at-end semantics.
* Exceptions (`KeyError` from `detail_df[None]` / `row[col]`, `ValueError`
  from `float()`) are modelled with `Except Unit` / `Option`.
-/

/-- A pandas cell value: NaN, a string, or an (integral) number. -/
inductive Value where
  | null : Value
  | str : String → Value
  | int : Int → Value
deriving DecidableEq, Repr

def isNullV : Value → Bool
  | .null => true
  | _ => false

def isStrV : Value → Bool
  | .str _ => true
  | _ => false

def isIntV : Value → Bool
  | .int _ => true
  | _ => false

/-! ## Python string primitives -/

/-- ASCII whitespace stripped by Python `str.strip()` and `float()`. -/
def isPySpace (c : Char) : Bool :=
  c = ' ' || c = '\t' || c = '\n' || c = '\x0d' || c = '\x0b' || c = '\x0c'

/-- ASCII decimal digit (the `str.isdigit()` test, restricted to ASCII). -/
def isDigitCh (c : Char) : Bool :=
  48 ≤ c.toNat && c.toNat ≤ 57

/-- `str.strip()` on the underlying character list. -/
def pyStripL (l : List Char) : List Char :=
  (l.dropWhile isPySpace).rdropWhile isPySpace

/-- Python `str.strip()`. -/
def pyStrip (s : String) : String :=
  ⟨pyStripL s.data⟩

/-- Python `str.lower()` on one character (ASCII letters). -/
def pyCharLower (c : Char) : Char :=
  if 65 ≤ c.toNat && c.toNat ≤ 90 then Char.ofNat (c.toNat + 32) else c

/-- Python `str.upper()` on one character (ASCII letters). -/
def pyCharUpper (c : Char) : Char :=
  if 97 ≤ c.toNat && c.toNat ≤ 122 then Char.ofNat (c.toNat - 32) else c

/-- Python `str.lower()`. -/
def pyLower (s : String) : String :=
  ⟨s.data.map pyCharLower⟩

/-- Python `str.upper()`. -/
def pyUpper (s : String) : String :=
  ⟨s.data.map pyCharUpper⟩

/-- `str.isdigit()` on a character list: non-empty and all digits. -/
def pyIsDigitL (l : List Char) : Bool :=
  !l.isEmpty && l.all isDigitCh

/-- Python substring containment `pat in s` on character lists. -/
def hasSubList (pat : List Char) : List Char → Bool
  | [] => pat.isEmpty
  | c :: rest => pat.isPrefixOf (c :: rest) || hasSubList pat rest

/-- Python `pat in s`. -/
def strContains (pat s : String) : Bool :=
  hasSubList pat.data s.data

/-- Decimal digits of a natural number, most significant first (the digits
Python's `str`/`%d` formatting emits); fuel-based so that it evaluates by
kernel reduction, with the fuel shown irrelevant below. -/
def natDigitsF : Nat → Nat → List Char
  | 0, n => [Char.ofNat (48 + n % 10)]
  | f + 1, n =>
      if n < 10 then [Char.ofNat (48 + n)]
      else natDigitsF f (n / 10) ++ [Char.ofNat (48 + n % 10)]

def natDigits (n : Nat) : List Char :=
  natDigitsF n n

/-- Python `str()` of an int. -/
def intStr (n : Int) : String :=
  if n < 0 then ⟨'-' :: natDigits (-n).toNat⟩ else ⟨natDigits n.toNat⟩

/-- Left-pad a digit string with `'0'` to width `w` (Python `%0wd`). -/
def padZeros (w : Nat) (l : List Char) : List Char :=
  List.replicate (w - l.length) '0' ++ l

/-- Python `f"{n:03d}"`: total field width 3, the sign included. -/
def pad3 (n : Int) : String :=
  if n < 0 then ⟨'-' :: padZeros 2 (natDigits (-n).toNat)⟩
  else ⟨padZeros 3 (natDigits n.toNat)⟩

/-- Numeric value of a digit string (left fold, so leading zeros vanish). -/
def digitsVal (l : List Char) : Nat :=
  l.foldl (fun a c => 10 * a + (c.toNat - 48)) 0

/-- Python `str(x)` of a cell value; `str(nan)` is `"nan"`. -/
def pyStr : Value → String
  | .null => "nan"
  | .str s => s
  | .int n => intStr n

/-- Python truthiness of a cell value: `bool('') = bool(0) = False`,
`bool(nan) = True`. -/
def pyTruthy : Value → Bool
  | .null => true
  | .str s => s ≠ ""
  | .int n => n ≠ 0

/-- Python `==` between cell values as pandas applies it elementwise:
numbers equal numbers by value, strings equal strings, no string/number
coercion, and `nan` equals nothing (including itself). -/
def pyEq : Value → Value → Bool
  | .int a, .int b => a = b
  | .str a, .str b => a = b
  | _, _ => false

/-! ## Python `float()` parsing (exponent-free forms) -/

/-- An exact decimal value `num / den`, the model of a parsed Python
float.  The code only ever compares such values numerically and truncates
them to ints, and every value the pipeline actually parses is within
double precision, so exact rational arithmetic is faithful here. -/
structure PyFloat where
  num : Int
  den : Nat
deriving DecidableEq, Repr

/-- Python `==` on floats: exact numeric (cross-multiplied) equality. -/
def pyfEq (a b : PyFloat) : Bool :=
  a.num * (b.den : Int) = b.num * (a.den : Int)

/-- Python `int()` on a float: truncation toward zero. -/
def pyfTrunc (a : PyFloat) : Int :=
  a.num.tdiv (a.den : Int)

/-- Leading sign of a numeric literal: `('-' consumed?, remainder)`. -/
def parseSign (l : List Char) : Bool × List Char :=
  if l.head? = some '-' then (true, l.tail)
  else if l.head? = some '+' then (false, l.tail) else (false, l)

/-- Assemble `±(ip + fp / 10^flen)` over the common denominator. -/
def ratOfParts (neg : Bool) (ip fp flen : Nat) : PyFloat :=
  let n : Int := (ip : Int) * ((10 ^ flen : Nat) : Int) + (fp : Int)
  ⟨if neg then -n else n, 10 ^ flen⟩

/-- Python `float(s)` for plain decimal literals `[±]ddd[.ddd]`, `[±].ddd`,
`[±]ddd.`; other inputs (and exponent forms, which no caller in the
modelled code can produce past its digit pre-check) give `none`, the
`ValueError` case. -/
def parsePyFloat (s : String) : Option PyFloat :=
  let l := pyStripL s.data
  let sgn := parseSign l
  let ip := sgn.2.takeWhile (· ≠ '.')
  let rest := sgn.2.dropWhile (· ≠ '.')
  match rest with
  | [] => if pyIsDigitL ip then some (ratOfParts sgn.1 (digitsVal ip) 0 0) else none
  | _ :: fp =>
      if ip.all isDigitCh && fp.all isDigitCh && !(ip.isEmpty && fp.isEmpty) then
        some (ratOfParts sgn.1 (digitsVal ip) (digitsVal fp) fp.length)
      else none

/-- Python `float(x)` of a cell value. -/
def pyFloatOf : Value → Option PyFloat
  | .int n => some ⟨n, 1⟩
  | .str s => parsePyFloat s
  | .null => none

/-! ## Frames (DataFrames) and dict rows -/

/-- A DataFrame: ordered column names plus positionally indexed rows. -/
structure Frame where
  cols : List String
  rows : List (List Value)
deriving DecidableEq, Repr

/-- Cell of a row at column position `j`; out-of-range reads are the
missing-value sentinel (how `pd.DataFrame(records)` pads absent keys). -/
def cellAt (r : List Value) (j : Nat) : Value :=
  r.getD j .null

/-- Cell of a row addressed by column name (pandas label lookup, first
occurrence). -/
def cellNamed (cols : List String) (r : List Value) (c : String) : Value :=
  cellAt r (cols.indexOf c)

/-- A Python dict record (`Series.to_dict()` result): association list with
unique keys. -/
abbrev Dict := List (String × Value)

/-- Python `d[k] = v`: update the existing key in place, else append. -/
def dictInsert : Dict → String → Value → Dict
  | [], k, v => [(k, v)]
  | (k1, v1) :: tl, k, v =>
      if k1 = k then (k1, v) :: tl else (k1, v1) :: dictInsert tl k v

/-- Python `d.get(k)` (label lookup; keys are unique, so first hit). -/
def dictGet : Dict → String → Option Value
  | [], _ => none
  | (k1, v1) :: tl, k => if k = k1 then some v1 else dictGet tl k

/-- `d[k]` with the NaN sentinel for a missing key (used only where the
key is known to be present). -/
def dictGetD (d : Dict) (k : String) : Value :=
  (dictGet d k).getD .null

/-- `Series.to_dict()`: build a dict from column names and cells (later
duplicate labels overwrite, Python dict semantics). -/
def dictOfRow (cols : List String) (r : List Value) : Dict :=
  ((cols.zip r).foldl (fun d kv => dictInsert d kv.1 kv.2) [])

/-- Python `{**a, **b}`: `a` updated by `b`'s items in order. -/
def pyDictMerge (a b : Dict) : Dict :=
  b.foldl (fun d kv => dictInsert d kv.1 kv.2) a

/-! ## Matcher (`BOMProcessor.match_data`, bom.py lines 109-172) -/

/-- Column scan for the weld-id column: name contains both `WELD` and
`UNIQUE` (upper-cased), first hit (bom.py lines 122-126).  The match loop
itself never reads this column. -/
def weldIdCol (cols : List String) : Option String :=
  cols.find? (fun c => strContains "WELD" (pyUpper c) && strContains "UNIQUE" (pyUpper c))

/-- Reference-slot columns: name contains `MATNO` (upper-cased) and some
digit (bom.py lines 128-129), in column order. -/
def matnoCols (cols : List String) : List String :=
  cols.filter (fun c => strContains "MATNO" (pyUpper c) && c.data.any Char.isDigit)

/-- The detail key column: name upper-cases to exactly `MATNO`, first hit
(bom.py lines 131-135). -/
def detailKeyCol (cols : List String) : Option String :=
  cols.find? (fun c => pyUpper c = "MATNO")

/-- One emitted record: its fields plus the `_matched` flag (the
`result_row['_matched']` bookkeeping entry, dropped before all
downstream processing). -/
abbrev MRec := Dict × Bool

/-- The slot guard `if matno and str(matno).strip():` (bom.py line 150):
Python truthiness AND non-blank string form. -/
def slotPass (v : Value) : Bool :=
  pyTruthy v && pyStrip (pyStr v) ≠ ""

/-- One (weld row, slot) step of the match loop (bom.py lines 148-164).
`none` key column models `detail_df[None]`, a `KeyError` raised only when
the slot guard passes. -/
def matchSlot (dcols : List String) (drows : List (List Value))
    (dkey : Option String) (wdict : Dict) (v : Value) :
    Except Unit (Option MRec) :=
  if slotPass v then
    match dkey with
    | none => .error ()
    | some dk =>
        match drows.find? (fun dr => pyEq (cellNamed dcols dr dk) v) with
        | some dr => .ok (some (pyDictMerge wdict (dictOfRow dcols dr), true))
        | none => .ok (some (dictInsert wdict dk v, false))
  else .ok none

/-- The inner `for matno_col in matno_columns` loop for one weld row. -/
def matchRow (dcols : List String) (drows : List (List Value))
    (dkey : Option String) (wcols : List String) (wrow : List Value) :
    List String → Except Unit (List MRec)
  | [] => .ok []
  | c :: cs => do
      let o ← matchSlot dcols drows dkey (dictOfRow wcols wrow)
        (cellNamed wcols wrow c)
      let rest ← matchRow dcols drows dkey wcols wrow cs
      pure (match o with | some mr => mr :: rest | none => rest)

/-- The outer `for idx, weld_row in weld_df.iterrows()` loop. -/
def matchRows (dcols : List String) (drows : List (List Value))
    (dkey : Option String) (wcols : List String) (mcols : List String) :
    List (List Value) → Except Unit (List MRec)
  | [] => .ok []
  | r :: rs => do
      let here ← matchRow dcols drows dkey wcols r mcols
      let rest ← matchRows dcols drows dkey wcols mcols rs
      pure (here ++ rest)

/-- `match_data`: records plus the `matched` / `missing` counters. -/
def matchData (w d : Frame) : Except Unit (List MRec × Nat × Nat) :=
  (matchRows d.cols d.rows (detailKeyCol d.cols) w.cols (matnoCols w.cols)
      w.rows).map
    (fun rs => (rs, rs.countP (fun mr => mr.2), rs.countP (fun mr => !mr.2)))

/-! ## Normalizer (`BOMProcessor.clean_data`, bom.py lines 174-206) -/

/-- Steps 1-2: `dropna(how='all')`, `dropna(axis=1, how='all')`,
`df.loc[:, ~df.columns.duplicated()]`.  Rows with no non-NaN cell go
first; then columns with no non-NaN cell among the remaining rows; then
later duplicate column names. -/
def keptRows (t : Frame) : List (List Value) :=
  t.rows.filter (fun r =>
    (List.range t.cols.length).any (fun j => !isNullV (cellAt r j)))

def keptColIdx (ncols : Nat) (rows : List (List Value)) : List Nat :=
  (List.range ncols).filter (fun j => rows.any (fun r => !isNullV (cellAt r j)))

def dedupIdx (cols : List String) : List Nat → List String → List Nat
  | [], _ => []
  | j :: js, seen =>
      if cols.getD j "" ∈ seen then dedupIdx cols js seen
      else j :: dedupIdx cols js (cols.getD j "" :: seen)

def stage12 (t : Frame) : Frame :=
  let rows1 := keptRows t
  let keptJ := dedupIdx t.cols (keptColIdx t.cols.length rows1) []
  ⟨keptJ.map (fun j => t.cols.getD j ""),
   rows1.map (fun r => keptJ.map (fun j => cellAt r j))⟩

/-- Step 3 per cell: `x.str.strip()` on an object-dtype column sends
strings to their stripped form and every non-string element to NaN;
then `fillna('')` replaces NaN by the empty string. -/
def stripFill (obj : Bool) (v : Value) : Value :=
  let v' := if obj then (match v with | .str s => .str (pyStrip s) | _ => .null) else v
  match v' with
  | .null => .str ""
  | w => w

/-- A column has pandas `object` dtype exactly when it holds a string. -/
def stage3 (t : Frame) : Frame :=
  let obj : Nat → Bool := fun j => t.rows.any (fun r => isStrV (cellAt r j))
  ⟨t.cols,
   t.rows.map (fun r =>
     (List.range t.cols.length).map (fun j => stripFill (obj j) (cellAt r j)))⟩

/-- Step 4, the type-canonicalization lambda: `'nan'`-looking or missing
values become `''`; an integral number stays the integer `int(x)`; other
values pass through.  (The datetime and non-integral-float branches act on
value forms outside the modelled universe.) -/
def step4Val : Value → Value
  | .str s => if pyLower s = "nan" then .str "" else .str s
  | .int n => .int n
  | .null => .str ""

def stage4 (t : Frame) : Frame :=
  ⟨t.cols, t.rows.map (fun r => r.map step4Val)⟩

/-- Step 5, the `WNO` formatting lambda (bom.py lines 200-204): if
`str(x).strip()` is truthy and `str(x)` minus `.`/`-` is all digits,
emit `f"{int(float(x)):03d}"`; `float()` may raise `ValueError`. -/
def digitOk (v : Value) : Bool :=
  pyStrip (pyStr v) ≠ "" &&
    pyIsDigitL (((pyStr v).data.filter (· ≠ '.')).filter (· ≠ '-'))

def wnoCell (v : Value) : Except Unit Value :=
  if digitOk v then
    match pyFloatOf v with
    | some q => .ok (.str (pad3 (pyfTrunc q)))
    | none => .error ()
  else .ok v

def wnoRow (j0 : Nat) (r : List Value) : Except Unit (List Value) :=
  (wnoCell (cellAt r j0)).map (fun wv => r.set j0 wv)

def wnoRows (j0 : Nat) : List (List Value) → Except Unit (List (List Value))
  | [] => .ok []
  | r :: rs => do
      let r' ← wnoRow j0 r
      let rs' ← wnoRows j0 rs
      pure (r' :: rs')

def stage5 (t : Frame) : Except Unit Frame :=
  if "WNO" ∈ t.cols then
    (wnoRows (t.cols.indexOf "WNO") t.rows).map (fun rs => ⟨t.cols, rs⟩)
  else .ok t

/-- `clean_data` (the trailing `infer_objects()` is value-identity). -/
def cleanData (t : Frame) : Except Unit Frame :=
  stage5 (stage4 (stage3 (stage12 t)))

/-! ## View materializer (`option2_excel_with_charts`, bom.py lines 294-325) -/

/-- `self.group_columns`. -/
def groupColumns : List String :=
  ["MATNO", "STEEL NO", "NESTING DWG", "Grade", "T"]

/-- Sort keys: the grouping column first, then every other declared
grouping column present in the schema, in declared order (bom.py
lines 302-305). -/
def sortColsFor (cols : List String) (g : String) : List String :=
  g :: groupColumns.filter (fun sc => sc ∈ cols && sc ≠ g)

/-- The filter `clean_df[group_col].astype(str).str.strip() != ''`:
master row positions whose grouping-column cell is non-blank as a
string. -/
def filteredIdx (t : Frame) (jg : Nat) : List Nat :=
  (List.range t.rows.length).filter
    (fun i => pyStrip (pyStr (cellAt (t.rows.getD i []) jg)) ≠ "")

/-- Python `<` on cell values, totalized by a type tag so it can feed a
sorting function; `sort_values` raises a `TypeError` before ever comparing
values of different types, which `materializeView`'s homogeneity guard
models, so the cross-type branches are never exercised on accepted
inputs. -/
def vtag : Value → Nat
  | .null => 0
  | .int _ => 1
  | .str _ => 2

/-- Python `<` on strings: lexicographic by code point. -/
def ltCharList : List Char → List Char → Bool
  | [], [] => false
  | [], _ :: _ => true
  | _ :: _, [] => false
  | a :: as, b :: bs =>
      if a.toNat < b.toNat then true
      else if b.toNat < a.toNat then false
      else ltCharList as bs

def ltStr (s u : String) : Bool :=
  ltCharList s.data u.data

def ltValue (a b : Value) : Bool :=
  vtag a < vtag b ||
    (vtag a = vtag b &&
      match a, b with
      | .int m, .int n => m < n
      | .str s, .str u => ltStr s u
      | _, _ => false)

/-- Lexicographic comparison of equal-length sort-key tuples. -/
def leKeys : List Value → List Value → Bool
  | [], _ => true
  | _ :: _, [] => true
  | a :: as, b :: bs => if a = b then leKeys as bs else ltValue a b

/-- Sort key of master row `i`. -/
def keyOf (t : Frame) (keyIdx : List Nat) (i : Nat) : List Value :=
  keyIdx.map (fun j => cellAt (t.rows.getD i []) j)

/-- Stable insertion into a sorted list: a newly processed (later) element
goes after every element already ≤ it, matching the stable order pandas'
multi-key `sort_values` (numpy's stable lexsort) produces. -/
def insertOrd {α : Type} (le : α → α → Bool) (x : α) : List α → List α
  | [] => [x]
  | y :: ys => if le y x then y :: insertOrd le x ys else x :: y :: ys

/-- Stable sort under a total preorder; for a total preorder all stable
sorts agree, so this is the order `sort_values` emits. -/
def stableSort {α : Type} (le : α → α → Bool) (l : List α) : List α :=
  l.foldl (fun acc x => insertOrd le x acc) []

/-- All cells of one prospective sort column, over the filtered rows. -/
def colCells (t : Frame) (idxs : List Nat) (j : Nat) : List Value :=
  idxs.map (fun i => cellAt (t.rows.getD i []) j)

/-- `sort_values` succeeds only when each sort column is type-homogeneous
over the sorted rows (otherwise numpy's object comparison raises). -/
def colHomogOn (t : Frame) (idxs : List Nat) (j : Nat) : Bool :=
  (colCells t idxs j).all isStrV || (colCells t idxs j).all isIntV

/-- The sorted row-position sequence backing one grouped sheet
(bom.py lines 294-309): filter to non-blank rows of the grouping column,
then a stable sort under the composite key.  `none` when the grouping
column is absent (the sheet is skipped) or when mixed types make
`sort_values` raise. -/
def materializeView (t : Frame) (g : String) : Option (List Nat) :=
  if g ∈ t.cols then
    let jg := t.cols.indexOf g
    let fi := filteredIdx t jg
    let keyIdx := (sortColsFor t.cols g).map (fun c => t.cols.indexOf c)
    if keyIdx.all (fun j => colHomogOn t fi j) then
      some (stableSort (fun i k => leKeys (keyOf t keyIdx i) (keyOf t keyIdx k)) fi)
    else none
  else none

/-- `openpyxl.utils.get_column_letter`: 1-based bijective base-26
(fuel-based so that it evaluates by kernel reduction; the fuel `n` always
suffices since the quotient shrinks strictly). -/
def colLetterF : Nat → Nat → String
  | 0, _ => ""
  | f + 1, n =>
      if n = 0 then ""
      else colLetterF f ((n - 1) / 26) ++ ⟨[Char.ofNat (65 + (n - 1) % 26)]⟩

def colLetter (n : Nat) : String :=
  colLetterF n n

/-- The linking formula written into a grouped-sheet cell (bom.py
line 324): `f"='전체'!{col_letter}{excel_row_num}"` with
`excel_row_num = original_idx + 2`. -/
def sheetRef (cnum : Nat) (masterIdx : Nat) : String :=
  "='전체'!" ++ colLetter cnum ++ intStr ((masterIdx : Int) + 2)

/-- One grouped sheet: the header row copied from the master columns,
then one all-formula row per sorted master row position (bom.py
lines 311-325). -/
def groupSheet (t : Frame) (g : String) : Option (List (List String)) :=
  (materializeView t g).map (fun si =>
    t.cols :: si.map (fun i =>
      (List.range t.cols.length).map (fun c => sheetRef (c + 1) i)))

/-! ## Consistency validator (`option3_validate_json`, bom.py lines 494-560) -/

/-- Sheet name of a grouping column (bom.py line 311):
`group_col.replace(' ', '_').replace('/', '_')[:31]`. -/
def sheetNameOf (col : String) : String :=
  ⟨(col.data.map (fun c => if c = ' ' || c = '/' then '_' else c)).take 31⟩

/-- Recover the grouping column from a sheet name (bom.py line 510). -/
def actualColOf (headers : List String) (sheetName : String) : Option String :=
  headers.find? (fun h => sheetNameOf h = sheetName)

/-- The validator's resolution key (bom.py line 504):
`'WELD UNIQUE ID' if 'WELD UNIQUE ID' in df_all.columns else 'MATNO'`. -/
def vKeyCol (headers : List String) : String :=
  if "WELD UNIQUE ID" ∈ headers then "WELD UNIQUE ID" else "MATNO"

/-- The sampled positions (bom.py line 526): first, middle, last. -/
def sampleIdxs (n : Nat) : List Nat :=
  [0, n / 2, n - 1]

/-- `df_all[df_all[key_col] == key_val].iloc[0]`, `None` when empty. -/
def resolveMaster (dfAll : List Dict) (key : String) (v : Value) : Option Dict :=
  dfAll.find? (fun r => pyEq (dictGetD r key) v)

/-- The numeric-equivalence relaxation (bom.py lines 543-547): both sides
parse as floats and are numerically equal. -/
def numRelaxEq (a b : String) : Bool :=
  match parsePyFloat a, parsePyFloat b with
  | some x, some y => pyfEq x y
  | _, _ => false

/-- Field comparison for one sampled pair (bom.py lines 537-551): over the
checked columns present in the headers, compare stripped string forms
after the numeric relaxation; each failure increments the mismatch count
and clears `data_match`. -/
def fieldCheck (headers : List String) (rg ra : Dict) :
    List String → Bool × Nat → Bool × Nat
  | [], acc => acc
  | c :: cs, (dm, mc) =>
      if c ∈ headers then
        let vg := pyStrip (pyStr (dictGetD rg c))
        let va := pyStrip (pyStr (dictGetD ra c))
        if numRelaxEq vg va then fieldCheck headers rg ra cs (dm, mc)
        else if vg ≠ va then fieldCheck headers rg ra cs (false, mc + 1)
        else fieldCheck headers rg ra cs (dm, mc)
      else fieldCheck headers rg ra cs (dm, mc)

/-- The sample loop (bom.py lines 527-551).  A missing resolution key in
the sampled row is the `KeyError` case; an unresolvable master row breaks
out with `data_match = False`. -/
def checkSamples (headers : List String) (dfAll dfGroup : List Dict)
    (keyc : String) (ccols : List String) :
    List Nat → Bool × Nat → Except Unit (Bool × Nat)
  | [], acc => .ok acc
  | idx :: rest, acc =>
      let rg := dfGroup.getD idx []
      match dictGet rg keyc with
      | none => .error ()
      | some kv =>
          match resolveMaster dfAll keyc kv with
          | none => .ok (false, acc.2)
          | some ra =>
              checkSamples headers dfAll dfGroup keyc ccols rest
                (fieldCheck headers rg ra ccols acc)

/-- Validation of one grouped sheet against the master sheet (bom.py
lines 494-560): `none` when no column maps to the sheet name (the sheet is
skipped); otherwise the `(row_count_match, data_match, mismatch_count)`
entry, sampling only when the counts match and the sheet is non-empty. -/
def validateSheet (headers : List String) (dfAll dfGroup : List Dict)
    (sheetName : String) : Option (Except Unit (Bool × Bool × Nat)) :=
  match actualColOf headers sheetName with
  | none => none
  | some ac =>
      let expected := dfAll.filter (fun r => pyStrip (pyStr (dictGetD r ac)) ≠ "")
      let cm : Bool := dfGroup.length == expected.length
      if cm && !dfGroup.isEmpty then
        some ((checkSamples headers dfAll dfGroup (vKeyCol headers)
          [ac, "WEIGHT", "T", "B"] (sampleIdxs dfGroup.length) (true, 0)).map
            (fun p => (cm, p.1, p.2)))
      else some (.ok (cm, true, 0))

/-! ## Spec-side comparison definitions

These two definitions follow the specification's words, not the code; they
exist only to be compared against the code-derived definitions above. -/

/-- Spec-side slot count for one weld row: slots whose value is present and
non-blank after trimming ("For all SourceRows with k non-empty reference
slots, matching emits exactly k MatchedRecords"). -/
def specNonBlankSlotCount (wcols : List String) (wrow : List Value) : Nat :=
  (matnoCols wcols).countP (fun c => pyStrip (pyStr (cellNamed wcols wrow c)) ≠ "")

/-- Spec-side resolution key for the validator ("resolve the corresponding
master row by its configured key column (material id if present in the
schema, else the view's grouping column)"). -/
def specResolveKey (headers : List String) (g : String) : String :=
  if "MATNO" ∈ headers then "MATNO" else g

/-- Decidable equality for modelled exception results, so that concrete
runs can be checked by `decide`. -/
def exceptEqDec {α : Type} [DecidableEq α] :
    ∀ a b : Except Unit α, Decidable (a = b)
  | .error (), .error () => isTrue rfl
  | .ok x, .ok y =>
      if h : x = y then isTrue (by rw [h])
      else isFalse (fun he => h (Except.ok.inj he))
  | .error (), .ok _ => isFalse (fun he => Except.noConfusion he)
  | .ok _, .error () => isFalse (fun he => Except.noConfusion he)

instance {α : Type} [DecidableEq α] : DecidableEq (Except Unit α) :=
  exceptEqDec

/-! ## Basic facts about the Python string primitives -/

theorem dropWhile_of_neg {p : Char → Bool} (l : List Char)
    (h : ∀ c ∈ l, p c = false) : List.dropWhile p l = l := by
  cases l with
  | nil => rfl
  | cons a l' => simp [List.dropWhile_cons, h a (List.mem_cons_self a l')]

theorem rdropWhile_of_neg {p : Char → Bool} (l : List Char)
    (h : ∀ c ∈ l, p c = false) : List.rdropWhile p l = l := by
  rw [List.rdropWhile_eq_self_iff]
  intro hne
  rw [h _ (List.getLast_mem hne)]
  simp

theorem pyStripL_idem (l : List Char) : pyStripL (pyStripL l) = pyStripL l := by
  unfold pyStripL
  generalize hm : List.dropWhile isPySpace l = m
  have hm2 : List.dropWhile isPySpace m = m := by
    rw [← hm]; exact List.dropWhile_idempotent _ _
  have h1 : List.dropWhile isPySpace (List.rdropWhile isPySpace m) =
      List.rdropWhile isPySpace m := by
    rcases List.rdropWhile_prefix isPySpace m with ⟨t, ht⟩
    cases hA : List.rdropWhile isPySpace m with
    | nil => rfl
    | cons a A' =>
      rw [hA] at ht
      have hme : m = a :: (A' ++ t) := by rw [← ht]; simp
      have hpa : isPySpace a = false := by
        by_contra hpa
        rw [Bool.not_eq_false] at hpa
        rw [hme, List.dropWhile_cons, hpa] at hm2
        simp only [if_true] at hm2
        have hle := (@List.dropWhile_sublist Char (A' ++ t) isPySpace).length_le
        have hlen := congrArg List.length hm2
        rw [List.length_cons] at hlen
        omega
      simp [List.dropWhile_cons, hpa]
  rw [h1, List.rdropWhile_idempotent]

theorem pyStripL_of_noSpace (l : List Char)
    (h : ∀ c ∈ l, isPySpace c = false) : pyStripL l = l := by
  unfold pyStripL
  rw [dropWhile_of_neg l h, rdropWhile_of_neg l h]

theorem data_mk (l : List Char) : (String.mk l).data = l := rfl

theorem pyStrip_idem (s : String) : pyStrip (pyStrip s) = pyStrip s := by
  unfold pyStrip
  exact congrArg String.mk (by rw [data_mk, pyStripL_idem])

theorem pyStrip_of_noSpace (s : String)
    (h : ∀ c ∈ s.data, isPySpace c = false) : pyStrip s = s := by
  unfold pyStrip
  cases s with
  | mk l => exact congrArg String.mk (pyStripL_of_noSpace l h)

theorem str_ne_empty_of_data (s : String) (h : s.data ≠ []) : s ≠ "" := by
  intro he
  subst he
  exact h rfl

theorem isDigitCh_spec (c : Char) (hc : isDigitCh c = true) :
    48 ≤ c.toNat ∧ c.toNat ≤ 57 := by
  simp [isDigitCh] at hc
  exact hc

theorem isDigitCh_ne_of_lt (c : Char) (hc : isDigitCh c = true)
    (x : Char) (hx : x.toNat < 48) : c ≠ x := by
  intro h
  subst h
  rcases isDigitCh_spec c hc with ⟨h1, _⟩
  omega

theorem isDigitCh_not_space (c : Char) (hc : isDigitCh c = true) :
    isPySpace c = false := by
  have h32 : c ≠ ' ' := isDigitCh_ne_of_lt c hc ' ' (by decide)
  have h9 : c ≠ '\t' := isDigitCh_ne_of_lt c hc '\t' (by decide)
  have h10 : c ≠ '\n' := isDigitCh_ne_of_lt c hc '\n' (by decide)
  have h13 : c ≠ '\x0d' := isDigitCh_ne_of_lt c hc '\x0d' (by decide)
  have h11 : c ≠ '\x0b' := isDigitCh_ne_of_lt c hc '\x0b' (by decide)
  have h12 : c ≠ '\x0c' := isDigitCh_ne_of_lt c hc '\x0c' (by decide)
  simp [isPySpace, h32, h9, h10, h13, h11, h12]

theorem toNat_ofNat_digit (d : Nat) (hd : d < 10) :
    (Char.ofNat (48 + d)).toNat = 48 + d := by
  interval_cases d <;> decide

theorem natDigitsF_irrel : ∀ f f' n : Nat, n ≤ f → n ≤ f' →
    natDigitsF f n = natDigitsF f' n := by
  intro f
  induction f with
  | zero =>
      intro f' n hf hf'
      have hn : n = 0 := by omega
      subst hn
      cases f' with
      | zero => rfl
      | succ m => simp [natDigitsF]
  | succ f ih =>
      intro f' n hf hf'
      cases f' with
      | zero =>
          have hn : n = 0 := by omega
          subst hn
          simp [natDigitsF]
      | succ m =>
          by_cases h : n < 10
          · simp [natDigitsF, h]
          · simp only [natDigitsF, if_neg h]
            have hdiv : n / 10 < n := Nat.div_lt_self (by omega) (by omega)
            rw [ih m (n / 10) (by omega) (by omega)]

theorem natDigits_eq (n : Nat) : natDigits n =
    if n < 10 then [Char.ofNat (48 + n)]
    else natDigits (n / 10) ++ [Char.ofNat (48 + n % 10)] := by
  by_cases h : n < 10
  · rw [if_pos h]
    cases n with
    | zero => simp [natDigits, natDigitsF]
    | succ m => simp [natDigits, natDigitsF, h]
  · rw [if_neg h]
    obtain ⟨m, rfl⟩ : ∃ m, n = m + 1 := ⟨n - 1, by omega⟩
    show natDigitsF (m + 1) (m + 1) = _
    rw [show natDigitsF (m + 1) (m + 1) =
      natDigitsF m ((m + 1) / 10) ++ [Char.ofNat (48 + (m + 1) % 10)] by
        simp [natDigitsF, h]]
    have hdiv : (m + 1) / 10 < m + 1 := Nat.div_lt_self (by omega) (by omega)
    rw [natDigitsF_irrel m ((m + 1) / 10) ((m + 1) / 10) (by omega) (by omega)]
    rfl

theorem natDigits_ne_nil (n : Nat) : natDigits n ≠ [] := by
  rw [natDigits_eq]
  split
  · simp
  · simp

theorem natDigits_all_digit (n : Nat) :
    ∀ c ∈ natDigits n, isDigitCh c = true := by
  induction n using Nat.strong_induction_on with
  | _ n ih =>
    rw [natDigits_eq]
    split
    · intro c hc
      simp at hc
      subst hc
      simp [isDigitCh]
      constructor
      · rw [toNat_ofNat_digit n (by omega)]; omega
      · rw [toNat_ofNat_digit n (by omega)]; omega
    · intro c hc
      rename_i h
      simp at hc
      rcases hc with hc | hc
      · exact ih (n / 10) (Nat.div_lt_self (by omega) (by omega)) c hc
      · subst hc
        have h10 : n % 10 < 10 := Nat.mod_lt _ (by omega)
        simp [isDigitCh]
        constructor
        · rw [toNat_ofNat_digit _ h10]; omega
        · rw [toNat_ofNat_digit _ h10]; omega

theorem digitsVal_cons (c : Char) (l : List Char) :
    digitsVal (c :: l) =
      (l.foldl (fun a c => 10 * a + (c.toNat - 48)) (c.toNat - 48)) := by
  simp [digitsVal]

theorem digitsVal_append_single (l : List Char) (c : Char) :
    digitsVal (l ++ [c]) = 10 * digitsVal l + (c.toNat - 48) := by
  simp [digitsVal, List.foldl_append]

theorem digitsVal_natDigits (n : Nat) : digitsVal (natDigits n) = n := by
  induction n using Nat.strong_induction_on with
  | _ n ih =>
    rw [natDigits_eq]
    split
    · rename_i h
      simp [digitsVal, toNat_ofNat_digit n (by omega)]
    · rename_i h
      rw [digitsVal_append_single]
      rw [ih (n / 10) (Nat.div_lt_self (by omega) (by omega))]
      rw [toNat_ofNat_digit _ (Nat.mod_lt _ (by omega))]
      omega

theorem foldl_replicate_zero (k : Nat) :
    (List.replicate k '0').foldl (fun a c => 10 * a + (c.toNat - 48)) 0 = 0 := by
  induction k with
  | zero => rfl
  | succ k ih => simpa [List.replicate_succ] using ih

theorem digitsVal_padZeros (w : Nat) (l : List Char) :
    digitsVal (padZeros w l) = digitsVal l := by
  simp [padZeros, digitsVal, List.foldl_append, foldl_replicate_zero]

theorem padZeros_all_digit (w : Nat) (l : List Char)
    (h : ∀ c ∈ l, isDigitCh c = true) :
    ∀ c ∈ padZeros w l, isDigitCh c = true := by
  intro c hc
  simp [padZeros] at hc
  rcases hc with ⟨-, rfl⟩ | hc
  · decide
  · exact h c hc

theorem padZeros_ne_nil (w : Nat) (l : List Char) (h : l ≠ []) :
    padZeros w l ≠ [] := by
  simp [padZeros]
  intro
  exact h

/-! ## Round-trip facts: `%03d` formatting vs `float()` parsing -/

theorem pyfTrunc_int (n : Int) : pyfTrunc ⟨n, 1⟩ = n := by
  simp [pyfTrunc]

theorem ratOfParts_int (neg : Bool) (ip : Nat) :
    ratOfParts neg ip 0 0 = ⟨if neg then -((ip : Nat) : Int) else ((ip : Nat) : Int), 1⟩ := by
  simp [ratOfParts]

theorem parsePyFloat_digits (l : List Char) (hne : l ≠ [])
    (hd : ∀ c ∈ l, isDigitCh c = true) :
    parsePyFloat ⟨l⟩ = some ⟨((digitsVal l : Nat) : Int), 1⟩ := by
  have hs : pyStripL l = l :=
    pyStripL_of_noSpace l (fun c hc => isDigitCh_not_space c (hd c hc))
  have hsign : parseSign l = (false, l) := by
    unfold parseSign
    cases l with
    | nil => exact absurd rfl hne
    | cons a l' =>
      have ha := hd a (List.mem_cons_self _ _)
      have h1 : a ≠ '-' := isDigitCh_ne_of_lt a ha '-' (by decide)
      have h2 : a ≠ '+' := isDigitCh_ne_of_lt a ha '+' (by decide)
      simp [h1, h2]
  have htake : l.takeWhile (· ≠ '.') = l := by
    rw [List.takeWhile_eq_self_iff]
    intro c hc
    simp only [decide_eq_true_eq]
    intro he
    exact isDigitCh_ne_of_lt c (hd c hc) '.' (by decide) he
  have hdrop : l.dropWhile (· ≠ '.') = [] := by
    rw [List.dropWhile_eq_nil_iff]
    intro c hc
    simp only [decide_eq_true_eq]
    intro he
    exact isDigitCh_ne_of_lt c (hd c hc) '.' (by decide) he
  have hdig : pyIsDigitL l = true := by
    simp [pyIsDigitL, hne, List.all_eq_true]
    exact hd
  simp only [parsePyFloat, data_mk, hs, hsign, htake, hdrop, hdig, if_true,
    ratOfParts_int]
  simp

theorem parsePyFloat_neg_digits (l : List Char) (hne : l ≠ [])
    (hd : ∀ c ∈ l, isDigitCh c = true) :
    parsePyFloat ⟨'-' :: l⟩ = some ⟨-((digitsVal l : Nat) : Int), 1⟩ := by
  have hs : pyStripL ('-' :: l) = '-' :: l := by
    apply pyStripL_of_noSpace
    intro c hc
    rcases List.mem_cons.mp hc with rfl | hc
    · decide
    · exact isDigitCh_not_space c (hd c hc)
  have hsign : parseSign ('-' :: l) = (true, l) := by
    simp [parseSign]
  have htake : l.takeWhile (· ≠ '.') = l := by
    rw [List.takeWhile_eq_self_iff]
    intro c hc
    simp only [decide_eq_true_eq]
    intro he
    exact isDigitCh_ne_of_lt c (hd c hc) '.' (by decide) he
  have hdrop : l.dropWhile (· ≠ '.') = [] := by
    rw [List.dropWhile_eq_nil_iff]
    intro c hc
    simp only [decide_eq_true_eq]
    intro he
    exact isDigitCh_ne_of_lt c (hd c hc) '.' (by decide) he
  have hdig : pyIsDigitL l = true := by
    simp [pyIsDigitL, hne, List.all_eq_true]
    exact hd
  simp only [parsePyFloat, data_mk, hs, hsign, htake, hdrop, hdig, if_true,
    ratOfParts_int]

theorem parsePyFloat_pad3 (n : Int) : parsePyFloat (pad3 n) = some ⟨n, 1⟩ := by
  unfold pad3
  split
  · rename_i hneg
    rw [parsePyFloat_neg_digits _
      (padZeros_ne_nil _ _ (natDigits_ne_nil _))
      (padZeros_all_digit _ _ (natDigits_all_digit _))]
    rw [digitsVal_padZeros, digitsVal_natDigits]
    rw [Int.toNat_of_nonneg (by omega)]
    simp
  · rename_i hneg
    rw [parsePyFloat_digits _
      (padZeros_ne_nil _ _ (natDigits_ne_nil _))
      (padZeros_all_digit _ _ (natDigits_all_digit _))]
    rw [digitsVal_padZeros, digitsVal_natDigits]
    rw [Int.toNat_of_nonneg (by omega)]

theorem pad3_data_nonempty (n : Int) : (pad3 n).data ≠ [] := by
  unfold pad3
  split
  · simp
  · exact padZeros_ne_nil _ _ (natDigits_ne_nil _)

theorem pad3_noSpace (n : Int) : ∀ c ∈ (pad3 n).data, isPySpace c = false := by
  unfold pad3
  split
  · intro c hc
    rcases List.mem_cons.mp hc with rfl | hc
    · decide
    · exact isDigitCh_not_space c (padZeros_all_digit _ _ (natDigits_all_digit _) c hc)
  · intro c hc
    exact isDigitCh_not_space c (padZeros_all_digit _ _ (natDigits_all_digit _) c hc)

theorem digitOk_pad3 (n : Int) : digitOk (.str (pad3 n)) = true := by
  have h1 : pyStrip (pad3 n) ≠ "" := by
    rw [pyStrip_of_noSpace _ (pad3_noSpace n)]
    apply str_ne_empty_of_data
    exact pad3_data_nonempty n
  have h2 : pyIsDigitL ((((pad3 n).data.filter (· ≠ '.')).filter (· ≠ '-'))) = true := by
    unfold pad3
    split
    · have hall := padZeros_all_digit 2 _ (natDigits_all_digit (-n).toNat)
      have hf1 : ('-' :: padZeros 2 (natDigits (-n).toNat)).filter (· ≠ '.') =
          '-' :: padZeros 2 (natDigits (-n).toNat) := by
        rw [List.filter_eq_self]
        intro c hc
        rcases List.mem_cons.mp hc with rfl | hc
        · decide
        · simp only [decide_eq_true_eq]
          intro he
          exact isDigitCh_ne_of_lt c (hall c hc) '.' (by decide) he
      rw [data_mk, hf1, List.filter_cons]
      simp only [decide_eq_true_eq]
      rw [if_neg (by simp)]
      have hf2 : (padZeros 2 (natDigits (-n).toNat)).filter (· ≠ '-') =
          padZeros 2 (natDigits (-n).toNat) := by
        rw [List.filter_eq_self]
        intro c hc
        simp only [decide_eq_true_eq]
        intro he
        exact isDigitCh_ne_of_lt c (hall c hc) '-' (by decide) he
      rw [hf2]
      simp [pyIsDigitL, padZeros_ne_nil _ _ (natDigits_ne_nil _), List.all_eq_true]
      exact hall
    · have hall := padZeros_all_digit 3 _ (natDigits_all_digit n.toNat)
      have hf1 : (padZeros 3 (natDigits n.toNat)).filter (· ≠ '.') =
          padZeros 3 (natDigits n.toNat) := by
        rw [List.filter_eq_self]
        intro c hc
        simp only [decide_eq_true_eq]
        intro he
        exact isDigitCh_ne_of_lt c (hall c hc) '.' (by decide) he
      have hf2 : (padZeros 3 (natDigits n.toNat)).filter (· ≠ '-') =
          padZeros 3 (natDigits n.toNat) := by
        rw [List.filter_eq_self]
        intro c hc
        simp only [decide_eq_true_eq]
        intro he
        exact isDigitCh_ne_of_lt c (hall c hc) '-' (by decide) he
      rw [data_mk, hf1, hf2]
      simp [pyIsDigitL, padZeros_ne_nil _ _ (natDigits_ne_nil _), List.all_eq_true]
      exact hall
  unfold digitOk
  rw [Bool.and_eq_true]
  refine ⟨?_, h2⟩
  simp only [decide_eq_true_eq]
  exact h1

theorem wnoCell_pad3 (n : Int) :
    wnoCell (.str (pad3 n)) = .ok (.str (pad3 n)) := by
  unfold wnoCell
  rw [digitOk_pad3, if_pos rfl]
  show (match pyFloatOf (.str (pad3 n)) with
    | some q => Except.ok (Value.str (pad3 (pyfTrunc q)))
    | none => Except.error ()) = _
  have hpf : pyFloatOf (.str (pad3 n)) = some ⟨n, 1⟩ := parsePyFloat_pad3 n
  rw [hpf]
  show Except.ok (Value.str (pad3 (pyfTrunc ⟨n, 1⟩))) = _
  rw [pyfTrunc_int]

/-- The `WNO` formatting step is idempotent on its own successful
outputs. -/
theorem wnoCell_fix (v w : Value) (h : wnoCell v = .ok w) :
    wnoCell w = .ok w := by
  by_cases hd : digitOk v = true
  · unfold wnoCell at h
    rw [hd, if_pos rfl] at h
    cases hp : pyFloatOf v with
    | none => rw [hp] at h; exact absurd h (by simp)
    | some q =>
        rw [hp] at h
        simp at h
        subst h
        exact wnoCell_pad3 (pyfTrunc q)
  · unfold wnoCell at h
    rw [if_neg hd] at h
    simp at h
    subst h
    unfold wnoCell
    rw [if_neg hd]

/-! ## Dict (Python dict) lemmas -/

theorem ebind_ok {α β : Type} (a : α) (f : α → Except Unit β) :
    (Except.ok a >>= f) = f a := rfl

theorem ebind_err {α β : Type} (f : α → Except Unit β) :
    ((Except.error () : Except Unit α) >>= f) = .error () := rfl


theorem dictGet_insert (d : Dict) (k : String) (v : Value) (k' : String) :
    dictGet (dictInsert d k v) k' = if k' = k then some v else dictGet d k' := by
  induction d with
  | nil =>
      by_cases h : k' = k <;> simp [dictInsert, dictGet, h]
  | cons p tl ih =>
      obtain ⟨k1, v1⟩ := p
      by_cases h1 : k1 = k
      · subst h1
        by_cases h : k' = k1 <;> simp [dictInsert, dictGet, h]
      · by_cases h3 : k' = k1
        · subst h3
          simp [dictInsert, dictGet, h1]
        · simp [dictInsert, dictGet, h1, h3, ih]

theorem dictGet_eq_none_of_not_mem (d : Dict) (k : String)
    (h : k ∉ d.map Prod.fst) : dictGet d k = none := by
  induction d with
  | nil => rfl
  | cons p tl ih =>
      obtain ⟨k1, v1⟩ := p
      rw [List.map_cons] at h
      have h1 : k ≠ k1 := fun he => h (by rw [he]; exact List.mem_cons_self _ _)
      have h2 : k ∉ tl.map Prod.fst := fun hm => h (List.mem_cons_of_mem _ hm)
      simp [dictGet, h1, ih h2]

theorem keys_dictInsert_of_mem (d : Dict) (k : String) (v : Value)
    (h : k ∈ d.map Prod.fst) :
    (dictInsert d k v).map Prod.fst = d.map Prod.fst := by
  induction d with
  | nil => simp at h
  | cons p tl ih =>
      obtain ⟨k1, v1⟩ := p
      by_cases h1 : k1 = k
      · subst h1
        simp [dictInsert]
      · rw [List.map_cons] at h
        rcases List.mem_cons.mp h with h | h
        · exact absurd h.symm h1
        · simp [dictInsert, h1, ih h]

theorem keys_dictInsert_of_not_mem (d : Dict) (k : String) (v : Value)
    (h : k ∉ d.map Prod.fst) :
    (dictInsert d k v).map Prod.fst = d.map Prod.fst ++ [k] := by
  induction d with
  | nil => simp [dictInsert]
  | cons p tl ih =>
      obtain ⟨k1, v1⟩ := p
      rw [List.map_cons] at h
      have h1 : k1 ≠ k := fun he => h (by rw [← he]; exact List.mem_cons_self _ _)
      have h2 : k ∉ tl.map Prod.fst := fun hm => h (List.mem_cons_of_mem _ hm)
      simp [dictInsert, h1, ih h2]

theorem nodup_keys_dictInsert (d : Dict) (k : String) (v : Value)
    (h : (d.map Prod.fst).Nodup) :
    ((dictInsert d k v).map Prod.fst).Nodup := by
  by_cases hm : k ∈ d.map Prod.fst
  · rw [keys_dictInsert_of_mem d k v hm]; exact h
  · rw [keys_dictInsert_of_not_mem d k v hm]
    simp [List.nodup_append, h, hm]

theorem nodup_keys_foldl_insert (l : List (String × Value)) :
    ∀ acc : Dict, (acc.map Prod.fst).Nodup →
      ((l.foldl (fun d kv => dictInsert d kv.1 kv.2) acc).map Prod.fst).Nodup := by
  induction l with
  | nil => intro acc h; exact h
  | cons p tl ih =>
      intro acc h
      exact ih _ (nodup_keys_dictInsert _ _ _ h)

theorem nodup_keys_dictOfRow (cols : List String) (r : List Value) :
    ((dictOfRow cols r).map Prod.fst).Nodup := by
  unfold dictOfRow
  exact nodup_keys_foldl_insert _ [] (by simp)

theorem pyDictMerge_cons (a : Dict) (k1 : String) (v1 : Value) (tl : Dict) :
    pyDictMerge a ((k1, v1) :: tl) = pyDictMerge (dictInsert a k1 v1) tl := rfl

/-- The overlay law of `{**a, **b}`: `b`'s binding wins when present,
otherwise `a`'s remains. -/
theorem dictGet_merge (b : Dict) :
    ∀ a : Dict, (b.map Prod.fst).Nodup → ∀ k,
      dictGet (pyDictMerge a b) k = (dictGet b k).or (dictGet a k) := by
  induction b with
  | nil => intro a _ k; simp [pyDictMerge, dictGet]
  | cons p tl ih =>
      obtain ⟨k1, v1⟩ := p
      intro a hnd k
      rw [pyDictMerge_cons]
      rw [List.map_cons, List.nodup_cons] at hnd
      rw [ih _ hnd.2 k]
      by_cases h : k = k1
      · subst h
        rw [dictGet_eq_none_of_not_mem tl k hnd.1]
        rw [dictGet_insert]
        simp [dictGet]
      · rw [dictGet_insert]
        simp [dictGet, h]

/-! ## Matcher lemmas -/

theorem matchSlot_skip (dcols : List String) (drows : List (List Value))
    (dkey : Option String) (wdict : Dict) (v : Value)
    (h : slotPass v = false) :
    matchSlot dcols drows dkey wdict v = .ok none := by
  simp [matchSlot, h]

theorem matchSlot_pass_some (dcols : List String) (drows : List (List Value))
    (dk : String) (wdict : Dict) (v : Value) (hp : slotPass v = true) :
    matchSlot dcols drows (some dk) wdict v =
      match drows.find? (fun dr => pyEq (cellNamed dcols dr dk) v) with
      | some dr => .ok (some (pyDictMerge wdict (dictOfRow dcols dr), true))
      | none => .ok (some (dictInsert wdict dk v, false)) := by
  unfold matchSlot
  rw [if_pos hp]

theorem matchSlot_noKey_err (dcols : List String) (drows : List (List Value))
    (wdict : Dict) (v : Value) (hp : slotPass v = true) :
    matchSlot dcols drows none wdict v = .error () := by
  unfold matchSlot
  rw [if_pos hp]

/-- With a detail key column present, the per-row loop never fails and
emits exactly one record per slot passing the guard. -/
theorem matchRow_some_key (dcols : List String) (drows : List (List Value))
    (dk : String) (wcols : List String) (wrow : List Value) :
    ∀ mcols : List String,
      ∃ l, matchRow dcols drows (some dk) wcols wrow mcols = .ok l ∧
        l.length = mcols.countP (fun c => slotPass (cellNamed wcols wrow c)) := by
  intro mcols
  induction mcols with
  | nil => exact ⟨[], rfl, rfl⟩
  | cons c cs ih =>
      obtain ⟨l, hl, hlen⟩ := ih
      by_cases hp : slotPass (cellNamed wcols wrow c) = true
      · have hms : ∃ mr, matchSlot dcols drows (some dk) (dictOfRow wcols wrow)
            (cellNamed wcols wrow c) = .ok (some mr) := by
          rw [matchSlot_pass_some _ _ _ _ _ hp]
          cases hf : drows.find?
              (fun dr => pyEq (cellNamed dcols dr dk) (cellNamed wcols wrow c)) with
          | some dr => exact ⟨_, rfl⟩
          | none => exact ⟨_, rfl⟩
        obtain ⟨mr, hmr⟩ := hms
        refine ⟨mr :: l, ?_, ?_⟩
        · simp only [matchRow]
          rw [hmr, ebind_ok, hl, ebind_ok]
          rfl
        · rw [List.countP_cons]
          simp [hp, hlen]
      · rw [Bool.not_eq_true] at hp
        refine ⟨l, ?_, ?_⟩
        · simp only [matchRow]
          rw [matchSlot_skip _ _ _ _ _ hp, ebind_ok, hl, ebind_ok]
          rfl
        · rw [List.countP_cons]
          simp [hp, hlen]

theorem matchRows_some_key (dcols : List String) (drows : List (List Value))
    (dk : String) (wcols : List String) (mcols : List String) :
    ∀ wrows : List (List Value),
      ∃ l, matchRows dcols drows (some dk) wcols mcols wrows = .ok l ∧
        l.length = (wrows.map
          (fun r => mcols.countP (fun c => slotPass (cellNamed wcols r c)))).sum := by
  intro wrows
  induction wrows with
  | nil => exact ⟨[], rfl, rfl⟩
  | cons r rs ih =>
      obtain ⟨lr, hlr, hlenr⟩ := matchRow_some_key dcols drows dk wcols r mcols
      obtain ⟨ls, hls, hlens⟩ := ih
      refine ⟨lr ++ ls, ?_, ?_⟩
      · simp only [matchRows]
        rw [hlr, ebind_ok, hls, ebind_ok]
        rfl
      · simp [hlenr, hlens]

/-- A row none of whose slots passes the guard contributes no records and
raises nothing, whatever the key column situation. -/
theorem matchRow_no_pass (dcols : List String) (drows : List (List Value))
    (dkey : Option String) (wcols : List String) (wrow : List Value) :
    ∀ mcols : List String,
      (∀ c ∈ mcols, slotPass (cellNamed wcols wrow c) = false) →
      matchRow dcols drows dkey wcols wrow mcols = .ok [] := by
  intro mcols
  induction mcols with
  | nil => intro _; rfl
  | cons c cs ih =>
      intro h
      simp only [matchRow]
      rw [matchSlot_skip _ _ _ _ _ (h c (List.mem_cons_self _ _)), ebind_ok]
      rw [ih (fun x hx => h x (List.mem_cons_of_mem _ hx)), ebind_ok]
      rfl

theorem matchRow_noKey_err (dcols : List String) (drows : List (List Value))
    (wcols : List String) (wrow : List Value) :
    ∀ mcols : List String,
      (∃ c ∈ mcols, slotPass (cellNamed wcols wrow c) = true) →
      matchRow dcols drows none wcols wrow mcols = .error () := by
  intro mcols
  induction mcols with
  | nil => rintro ⟨c, hc, -⟩; simp at hc
  | cons c cs ih =>
      rintro ⟨c', hc', hp⟩
      by_cases hp0 : slotPass (cellNamed wcols wrow c) = true
      · simp only [matchRow]
        rw [matchSlot_noKey_err _ _ _ _ hp0, ebind_err]
      · rcases List.mem_cons.mp hc' with rfl | hc'
        · exact absurd hp hp0
        · simp only [matchRow]
          rw [Bool.not_eq_true] at hp0
          rw [matchSlot_skip _ _ _ _ _ hp0, ebind_ok]
          rw [ih ⟨c', hc', hp⟩, ebind_err]

theorem matchRows_no_pass (dcols : List String) (drows : List (List Value))
    (dkey : Option String) (wcols : List String) (mcols : List String) :
    ∀ wrows : List (List Value),
      (∀ r ∈ wrows, ∀ c ∈ mcols, slotPass (cellNamed wcols r c) = false) →
      matchRows dcols drows dkey wcols mcols wrows = .ok [] := by
  intro wrows
  induction wrows with
  | nil => intro _; rfl
  | cons r rs ih =>
      intro h
      simp only [matchRows]
      rw [matchRow_no_pass _ _ _ _ _ _ (h r (List.mem_cons_self _ _)), ebind_ok]
      rw [ih (fun x hx => h x (List.mem_cons_of_mem _ hx)), ebind_ok]
      rfl

theorem matchRows_noKey_err (dcols : List String) (drows : List (List Value))
    (wcols : List String) (mcols : List String) :
    ∀ wrows : List (List Value),
      (∃ r ∈ wrows, ∃ c ∈ mcols, slotPass (cellNamed wcols r c) = true) →
      matchRows dcols drows none wcols mcols wrows = .error () := by
  intro wrows
  induction wrows with
  | nil => rintro ⟨r, hr, -⟩; simp at hr
  | cons r rs ih =>
      rintro ⟨r', hr', hex⟩
      by_cases h0 : ∃ c ∈ mcols, slotPass (cellNamed wcols r c) = true
      · simp only [matchRows]
        rw [matchRow_noKey_err _ _ _ _ _ h0, ebind_err]
      · push_neg at h0
        have hall : ∀ c ∈ mcols, slotPass (cellNamed wcols r c) = false := by
          intro c hc
          rw [Bool.eq_false_iff]
          exact h0 c hc
        rcases List.mem_cons.mp hr' with rfl | hr'
        · obtain ⟨c, hc, hp⟩ := hex
          exact absurd hp (by rw [hall c hc]; simp)
        · simp only [matchRows]
          rw [matchRow_no_pass _ _ _ _ _ _ hall, ebind_ok]
          rw [ih ⟨r', hr', hex⟩, ebind_err]

/-- With no slot columns at all, matching returns successfully with an
empty record set. -/
theorem matchRows_empty_mcols (dcols : List String) (drows : List (List Value))
    (dkey : Option String) (wcols : List String) :
    ∀ wrows : List (List Value),
      matchRows dcols drows dkey wcols [] wrows = .ok [] := by
  intro wrows
  induction wrows with
  | nil => rfl
  | cons r rs ih =>
      simp only [matchRows]
      rw [show matchRow dcols drows dkey wcols r [] = .ok [] from rfl, ebind_ok]
      rw [ih, ebind_ok]
      rfl

/-! ## Ordering lemmas for the view sort -/

theorem char_toNat_inj {a b : Char} (h : a.toNat = b.toNat) : a = b := by
  apply Char.ext
  exact UInt32.ext h

theorem ltCharList_asymm : ∀ as bs : List Char,
    ltCharList as bs = true → ltCharList bs as = false := by
  intro as
  induction as with
  | nil =>
      intro bs h
      cases bs with
      | nil => exact absurd h (by simp [ltCharList])
      | cons b bs => rfl
  | cons a as ih =>
      intro bs h
      cases bs with
      | nil => exact absurd h (by simp [ltCharList])
      | cons b bs =>
          simp only [ltCharList] at h ⊢
          by_cases h1 : a.toNat < b.toNat
          · rw [if_neg (by omega), if_pos h1]
          · rw [if_neg h1] at h
            by_cases h2 : b.toNat < a.toNat
            · rw [if_pos h2] at h
              cases h
            · rw [if_neg h2] at h
              rw [if_neg h2, if_neg h1]
              exact ih bs h

theorem ltCharList_trans : ∀ as bs cs : List Char,
    ltCharList as bs = true → ltCharList bs cs = true →
    ltCharList as cs = true := by
  intro as
  induction as with
  | nil =>
      intro bs cs h1 h2
      cases bs with
      | nil => exact h2
      | cons b bs =>
          cases cs with
          | nil => exact absurd h2 (by simp [ltCharList])
          | cons c cs => rfl
  | cons a as ih =>
      intro bs cs h1 h2
      cases bs with
      | nil => exact absurd h1 (by simp [ltCharList])
      | cons b bs =>
          cases cs with
          | nil => exact absurd h2 (by simp [ltCharList])
          | cons c cs =>
              simp only [ltCharList] at h1 h2 ⊢
              by_cases hab : a.toNat < b.toNat
              · by_cases hbc : b.toNat < c.toNat
                · rw [if_pos (by omega)]
                · rw [if_neg hbc] at h2
                  by_cases hcb : c.toNat < b.toNat
                  · rw [if_pos hcb] at h2
                    cases h2
                  · rw [if_neg hcb] at h2
                    rw [if_pos (by omega)]
              · rw [if_neg hab] at h1
                by_cases hba : b.toNat < a.toNat
                · rw [if_pos hba] at h1
                  cases h1
                · rw [if_neg hba] at h1
                  by_cases hbc : b.toNat < c.toNat
                  · rw [if_pos (by omega)]
                  · rw [if_neg hbc] at h2
                    by_cases hcb : c.toNat < b.toNat
                    · rw [if_pos hcb] at h2
                      cases h2
                    · rw [if_neg hcb] at h2
                      rw [if_neg (by omega), if_neg (by omega)]
                      exact ih bs cs h1 h2

theorem ltCharList_total_ne : ∀ as bs : List Char, as ≠ bs →
    ltCharList as bs = true ∨ ltCharList bs as = true := by
  intro as
  induction as with
  | nil =>
      intro bs h
      cases bs with
      | nil => exact absurd rfl h
      | cons b bs => exact Or.inl rfl
  | cons a as ih =>
      intro bs h
      cases bs with
      | nil => exact Or.inr rfl
      | cons b bs =>
          simp only [ltCharList]
          by_cases hab : a.toNat < b.toNat
          · left
            rw [if_pos hab]
          · by_cases hba : b.toNat < a.toNat
            · right
              rw [if_pos hba]
            · have hae : a = b := char_toNat_inj (by omega)
              subst hae
              have htl : as ≠ bs := by
                intro he
                exact h (by rw [he])
              rcases ih bs htl with h1 | h1
              · left
                rw [if_neg hab, if_neg hba]
                exact h1
              · right
                rw [if_neg hab, if_neg hba]
                exact h1

theorem ltValue_asymm {a b : Value} (h : ltValue a b = true) :
    ltValue b a = false := by
  cases a <;> cases b <;>
    simp [ltValue, vtag, ltStr] at h ⊢ <;>
    first
      | omega
      | exact ltCharList_asymm _ _ h

theorem ltValue_trans {a b c : Value} (h1 : ltValue a b = true)
    (h2 : ltValue b c = true) : ltValue a c = true := by
  cases a <;> cases b <;> cases c <;>
    simp [ltValue, vtag, ltStr] at h1 h2 ⊢ <;>
    first
      | omega
      | exact ltCharList_trans _ _ _ h1 h2

theorem ltValue_total_ne {a b : Value} (h : a ≠ b) :
    ltValue a b = true ∨ ltValue b a = true := by
  cases a <;> cases b <;> simp [ltValue, vtag, ltStr] <;>
    first
      | omega
      | exact h rfl
      | (intro he; exact h (by rw [he]))
      | (apply ltCharList_total_ne
         intro he
         exact h (by rw [String.ext he]))

theorem leKeys_trans : ∀ xs ys zs : List Value,
    xs.length = ys.length → ys.length = zs.length →
    leKeys xs ys = true → leKeys ys zs = true → leKeys xs zs = true := by
  intro xs
  induction xs with
  | nil => intro ys zs _ _ _ _; rfl
  | cons a as ih =>
      intro ys zs hxy hyz h1 h2
      cases ys with
      | nil => simp at hxy
      | cons b bs =>
          cases zs with
          | nil => simp at hyz
          | cons c cs =>
              simp only [leKeys] at h1 h2 ⊢
              simp only [List.length_cons] at hxy hyz
              by_cases hab : a = b
              · subst hab
                rw [if_pos rfl] at h1
                by_cases hbc : a = c
                · subst hbc
                  rw [if_pos rfl] at h2 ⊢
                  exact ih bs cs (by omega) (by omega) h1 h2
                · rw [if_neg hbc] at h2 ⊢
                  exact h2
              · rw [if_neg hab] at h1
                by_cases hbc : b = c
                · subst hbc
                  rw [if_neg hab]
                  exact h1
                · rw [if_neg hbc] at h2
                  have hac : a ≠ c := by
                    intro he
                    subst he
                    have := ltValue_asymm h1
                    rw [h2] at this
                    cases this
                  rw [if_neg hac]
                  exact ltValue_trans h1 h2

theorem leKeys_total : ∀ xs ys : List Value, xs.length = ys.length →
    (leKeys xs ys || leKeys ys xs) = true := by
  intro xs
  induction xs with
  | nil => intro ys _; rfl
  | cons a as ih =>
      intro ys hxy
      cases ys with
      | nil => simp at hxy
      | cons b bs =>
          simp only [leKeys]
          simp only [List.length_cons] at hxy
          by_cases hab : a = b
          · subst hab
            rw [if_pos rfl, if_pos rfl]
            exact ih bs (by omega)
          · rw [if_neg hab, if_neg (fun he => hab he.symm)]
            rcases ltValue_total_ne hab with h | h
            · rw [h]; rfl
            · rw [h]; simp

theorem keyOf_length (t : Frame) (keyIdx : List Nat) (i : Nat) :
    (keyOf t keyIdx i).length = keyIdx.length := by
  simp [keyOf]

theorem keyLe_trans (t : Frame) (keyIdx : List Nat) :
    ∀ a b c : Nat,
      leKeys (keyOf t keyIdx a) (keyOf t keyIdx b) = true →
      leKeys (keyOf t keyIdx b) (keyOf t keyIdx c) = true →
      leKeys (keyOf t keyIdx a) (keyOf t keyIdx c) = true := by
  intro a b c h1 h2
  exact leKeys_trans _ _ _ (by simp [keyOf_length]) (by simp [keyOf_length]) h1 h2

theorem keyLe_total (t : Frame) (keyIdx : List Nat) :
    ∀ a b : Nat,
      (leKeys (keyOf t keyIdx a) (keyOf t keyIdx b) ||
        leKeys (keyOf t keyIdx b) (keyOf t keyIdx a)) = true := by
  intro a b
  exact leKeys_total _ _ (by simp [keyOf_length])

/-- Length and membership facts about the stable insertion sort. -/
theorem insertOrd_length {α : Type} (le : α → α → Bool) (x : α) :
    ∀ l : List α, (insertOrd le x l).length = l.length + 1 := by
  intro l
  induction l with
  | nil => rfl
  | cons y ys ih =>
      simp only [insertOrd]
      split
      · simp [ih]
      · simp

theorem mem_insertOrd {α : Type} (le : α → α → Bool) (x z : α) :
    ∀ l : List α, z ∈ insertOrd le x l ↔ z = x ∨ z ∈ l := by
  intro l
  induction l with
  | nil => simp [insertOrd]
  | cons y ys ih =>
      simp only [insertOrd]
      split
      · simp only [List.mem_cons, ih]
        tauto
      · simp only [List.mem_cons]

theorem insertOrd_pairwise {α : Type} (le : α → α → Bool)
    (htrans : ∀ a b c, le a b = true → le b c = true → le a c = true)
    (htotal : ∀ a b, (le a b || le b a) = true) (x : α) :
    ∀ l : List α, List.Pairwise (fun a b => le a b = true) l →
      List.Pairwise (fun a b => le a b = true) (insertOrd le x l) := by
  intro l
  induction l with
  | nil => intro _; simp [insertOrd]
  | cons y ys ih =>
      intro hp
      rw [List.pairwise_cons] at hp
      simp only [insertOrd]
      split
      · rename_i hle
        rw [List.pairwise_cons]
        constructor
        · intro z hz
          rcases (mem_insertOrd le x z ys).mp hz with rfl | hz
          · exact hle
          · exact hp.1 z hz
        · exact ih hp.2
      · rename_i hnle
        have hxy : le x y = true := by
          have := htotal y x
          rw [Bool.or_eq_true] at this
          rcases this with h | h
          · exact absurd h hnle
          · exact h
        rw [List.pairwise_cons]
        constructor
        · intro z hz
          rcases List.mem_cons.mp hz with rfl | hz
          · exact hxy
          · exact htrans x y z hxy (hp.1 z hz)
        · rw [List.pairwise_cons]
          exact hp

theorem stableSort_pairwise {α : Type} (le : α → α → Bool)
    (htrans : ∀ a b c, le a b = true → le b c = true → le a c = true)
    (htotal : ∀ a b, (le a b || le b a) = true) :
    ∀ (l acc : List α), List.Pairwise (fun a b => le a b = true) acc →
      List.Pairwise (fun a b => le a b = true)
        (l.foldl (fun acc x => insertOrd le x acc) acc) := by
  intro l
  induction l with
  | nil => intro acc h; exact h
  | cons x xs ih =>
      intro acc h
      exact ih _ (insertOrd_pairwise le htrans htotal x acc h)

theorem stableSort_sorted {α : Type} (le : α → α → Bool)
    (htrans : ∀ a b c, le a b = true → le b c = true → le a c = true)
    (htotal : ∀ a b, (le a b || le b a) = true) (l : List α) :
    List.Pairwise (fun a b => le a b = true) (stableSort le l) :=
  stableSort_pairwise le htrans htotal l [] (by simp)

theorem stableSort_length {α : Type} (le : α → α → Bool) :
    ∀ (l acc : List α),
      (l.foldl (fun acc x => insertOrd le x acc) acc).length =
        acc.length + l.length := by
  intro l
  induction l with
  | nil => intro acc; simp
  | cons x xs ih =>
      intro acc
      rw [List.foldl_cons, ih, insertOrd_length, List.length_cons]
      omega

/-- Unpacking a successful materialization. -/
theorem materializeView_some (t : Frame) (g : String) (si : List Nat)
    (h : materializeView t g = some si) :
    g ∈ t.cols ∧
    si = stableSort
      (fun i k => leKeys
        (keyOf t ((sortColsFor t.cols g).map (fun c => t.cols.indexOf c)) i)
        (keyOf t ((sortColsFor t.cols g).map (fun c => t.cols.indexOf c)) k))
      (filteredIdx t (t.cols.indexOf g)) := by
  unfold materializeView at h
  by_cases hg : g ∈ t.cols
  · rw [if_pos hg] at h
    by_cases hh : ((sortColsFor t.cols g).map (fun c => t.cols.indexOf c)).all
        (fun j => colHomogOn t (filteredIdx t (t.cols.indexOf g)) j) = true
    · rw [if_pos hh] at h
      exact ⟨hg, (Option.some_injective _ h).symm⟩
    · rw [if_neg hh] at h
      cases h
  · rw [if_neg hg] at h
    cases h

theorem countP_range_getD {α : Type} (l : List α) (d : α) (p : α → Bool) :
    (List.range l.length).countP (fun i => p (l.getD i d)) = l.countP p := by
  induction l with
  | nil => rfl
  | cons x xs ih =>
      rw [List.length_cons, List.range_succ_eq_map]
      rw [List.countP_cons, List.countP_map]
      rw [List.countP_cons]
      have he : ((fun i => p ((x :: xs).getD i d)) ∘ Nat.succ) =
          (fun i => p (xs.getD i d)) := by
        funext i
        simp [List.getD_cons_succ]
      rw [he, ih]
      simp [List.getD]

/-! ## Frame access and stage-column lemmas -/

theorem getD_map_lt {α β : Type} (f : α → β) (l : List α) (db : β) (da : α)
    (i : Nat) (h : i < l.length) :
    (l.map f).getD i db = f (l.getD i da) := by
  rw [List.getD_eq_getElem _ _ (by simpa using h), List.getElem_map,
    List.getD_eq_getElem _ _ h]

theorem getD_range_lt (n i d : Nat) (h : i < n) :
    (List.range n).getD i d = i := by
  rw [List.getD_eq_getElem _ _ (by simpa using h), List.getElem_range]

theorem sheetRef_head (c i : Nat) : (sheetRef c i).data.head? = some '=' := by
  unfold sheetRef
  rw [String.data_append, String.data_append]
  rfl

theorem dedupIdx_subset (cols : List String) :
    ∀ (js : List Nat) (seen : List String), ∀ j ∈ dedupIdx cols js seen, j ∈ js := by
  intro js
  induction js with
  | nil => intro seen j hj; exact absurd hj (by simp [dedupIdx])
  | cons j0 js ih =>
      intro seen j hj
      simp only [dedupIdx] at hj
      split at hj
      · exact List.mem_cons_of_mem _ (ih seen j hj)
      · rcases List.mem_cons.mp hj with rfl | hj
        · exact List.mem_cons_self _ _
        · exact List.mem_cons_of_mem _ (ih _ j hj)

theorem stage12_cols_subset (t : Frame) :
    ∀ x ∈ (stage12 t).cols, x ∈ t.cols := by
  intro x hx
  unfold stage12 at hx
  simp only at hx
  rcases List.mem_map.mp hx with ⟨j, hj, rfl⟩
  have hj2 := dedupIdx_subset t.cols _ _ j hj
  have hj3 : j ∈ List.range t.cols.length := List.mem_of_mem_filter hj2
  have hj4 : j < t.cols.length := List.mem_range.mp hj3
  rw [List.getD_eq_getElem _ _ hj4]
  exact List.getElem_mem hj4

theorem stage3_cols (t : Frame) : (stage3 t).cols = t.cols := rfl

theorem stage4_cols (t : Frame) : (stage4 t).cols = t.cols := rfl

/-- Without a `WNO` column, `clean_data` always succeeds. -/
theorem cleanData_ok_of_no_wno (t : Frame) (h : "WNO" ∉ t.cols) :
    ∃ t', cleanData t = .ok t' := by
  unfold cleanData
  have h2 : "WNO" ∉ (stage4 (stage3 (stage12 t))).cols := by
    rw [stage4_cols, stage3_cols]
    intro hmem
    exact h (stage12_cols_subset t _ hmem)
  unfold stage5
  rw [if_neg h2]
  exact ⟨_, rfl⟩

/-! ## Cell-level lemmas for the normalizer -/

theorem cellAt_mem (r : List Value) (j : Nat) (h : j < r.length) :
    cellAt r j ∈ r := by
  rw [cellAt, List.getD_eq_getElem _ _ h]
  exact List.getElem_mem h

theorem map_getD_range {α : Type} (l : List α) (d : α) :
    (List.range l.length).map (fun j => l.getD j d) = l := by
  apply List.ext_getElem
  · simp
  · intro i h1 h2
    rw [List.getElem_map, List.getElem_range]
    rw [List.getD_eq_getElem _ _ h2]

theorem map_cellAt_range (r : List Value) (n : Nat) (h : r.length = n) :
    (List.range n).map (fun j => cellAt r j) = r := by
  subst h
  exact map_getD_range r .null

theorem set_cellAt_self (r : List Value) (j : Nat) (h : j < r.length) :
    r.set j (cellAt r j) = r := by
  apply List.ext_getElem
  · simp
  · intro i h1 h2
    rw [List.getElem_set]
    split
    · rename_i hij
      subst hij
      rw [cellAt, List.getD_eq_getElem _ _ h]
    · rfl

theorem stripFill_ne_null (obj : Bool) (v : Value) :
    isNullV (stripFill obj v) = false := by
  cases obj <;> cases v <;> simp [stripFill, isNullV]

theorem step4Val_ne_null (v : Value) : isNullV (step4Val v) = false := by
  cases v with
  | null => simp [step4Val, isNullV]
  | int n => simp [step4Val, isNullV]
  | str s =>
      simp only [step4Val]
      split <;> simp [isNullV]

theorem pyCharLower_digit (c : Char) (h : isDigitCh c = true) :
    pyCharLower c = c := by
  rcases isDigitCh_spec c h with ⟨h1, h2⟩
  have hc : (65 ≤ c.toNat && c.toNat ≤ 90) = false := by
    simp only [Bool.and_eq_false_iff]
    left
    simp only [decide_eq_false_iff_not]
    omega
  simp [pyCharLower, hc]

theorem pyLower_pad3_ne_nan (n : Int) : pyLower (pad3 n) ≠ "nan" := by
  intro he
  have hd : (pad3 n).data.map pyCharLower = ['n', 'a', 'n'] :=
    congrArg String.data he
  unfold pad3 at hd
  split at hd
  · rw [show (String.mk ('-' :: padZeros 2 (natDigits (-n).toNat))).data =
      '-' :: padZeros 2 (natDigits (-n).toNat) from rfl] at hd
    rw [List.map_cons] at hd
    rw [show pyCharLower '-' = '-' from by decide] at hd
    simp at hd
  · cases hl : padZeros 3 (natDigits n.toNat) with
    | nil => exact absurd hl (padZeros_ne_nil _ _ (natDigits_ne_nil _))
    | cons c0 rest =>
        rw [show (String.mk (padZeros 3 (natDigits n.toNat))).data =
          padZeros 3 (natDigits n.toNat) from rfl, hl, List.map_cons] at hd
        have hc0 : isDigitCh c0 = true :=
          padZeros_all_digit _ _ (natDigits_all_digit _) c0
            (by rw [hl]; exact List.mem_cons_self _ _)
        rw [pyCharLower_digit c0 hc0] at hd
        rw [List.cons_eq_cons] at hd
        rcases isDigitCh_spec c0 hc0 with ⟨ha, hb⟩
        have : c0 = 'n' := hd.1
        subst this
        revert ha hb
        decide

theorem pyStrip_pad3 (n : Int) : pyStrip (pad3 n) = pad3 n :=
  pyStrip_of_noSpace _ (pad3_noSpace n)

/-- Everything `wnoCell` can return satisfies the string invariants. -/
theorem wnoCell_ok_cases (v w : Value) (h : wnoCell v = .ok w) :
    w = v ∨ ∃ m : Int, w = .str (pad3 m) := by
  unfold wnoCell at h
  split at h
  · cases hp : pyFloatOf v with
    | none => rw [hp] at h; exact absurd h (by simp)
    | some q =>
        rw [hp] at h
        simp at h
        exact Or.inr ⟨pyfTrunc q, h.symm⟩
  · simp at h
    exact Or.inl h.symm

/-! ## Fixed-point lemmas for the normalizer stages -/

theorem keptRows_fixed (t : Frame)
    (hlen : ∀ r ∈ t.rows, r.length = t.cols.length)
    (hnn : ∀ r ∈ t.rows, ∀ v ∈ r, isNullV v = false)
    (hiff : t.cols = [] ↔ t.rows = []) :
    keptRows t = t.rows := by
  by_cases hc : t.cols = []
  · have hr := hiff.mp hc
    unfold keptRows
    rw [hr]
    rfl
  · unfold keptRows
    rw [List.filter_eq_self]
    intro r hr
    rw [List.any_eq_true]
    have hlr := hlen r hr
    have hlt : 0 < t.cols.length := by
      cases hcc : t.cols with
      | nil => exact absurd hcc hc
      | cons x xs => simp [hcc]
    refine ⟨0, List.mem_range.mpr hlt, ?_⟩
    have := hnn r hr _ (cellAt_mem r 0 (by omega))
    simp [this]

theorem keptColIdx_fixed (t : Frame)
    (hlen : ∀ r ∈ t.rows, r.length = t.cols.length)
    (hnn : ∀ r ∈ t.rows, ∀ v ∈ r, isNullV v = false)
    (hiff : t.cols = [] ↔ t.rows = []) :
    keptColIdx t.cols.length t.rows = List.range t.cols.length := by
  unfold keptColIdx
  rw [List.filter_eq_self]
  intro j hj
  rw [List.any_eq_true]
  have hj' : j < t.cols.length := List.mem_range.mp hj
  cases ht : t.rows with
  | nil =>
      exfalso
      have := hiff.mpr ht
      rw [this] at hj'
      simp at hj'
  | cons r rs =>
      have hr : r ∈ t.rows := by rw [ht]; exact List.mem_cons_self _ _
      refine ⟨r, List.mem_cons_self _ _, ?_⟩
      have := hnn r hr _ (cellAt_mem r j (by rw [hlen r hr]; omega))
      simp [this]

theorem dedupIdx_eq_self (cols : List String) :
    ∀ (js : List Nat) (seen : List String),
      (∀ j ∈ js, cols.getD j "" ∉ seen) →
      List.Pairwise (fun a b => cols.getD a "" ≠ cols.getD b "") js →
      dedupIdx cols js seen = js := by
  intro js
  induction js with
  | nil => intro seen _ _; rfl
  | cons j0 js ih =>
      intro seen hseen hpw
      rw [List.pairwise_cons] at hpw
      simp only [dedupIdx]
      rw [if_neg (hseen j0 (List.mem_cons_self _ _))]
      congr 1
      apply ih
      · intro j hj
        rw [List.mem_cons]
        push_neg
        constructor
        · exact fun he => (hpw.1 j hj) he.symm
        · exact hseen j (List.mem_cons_of_mem _ hj)
      · exact hpw.2

theorem stage12_fixed (t : Frame)
    (hlen : ∀ r ∈ t.rows, r.length = t.cols.length)
    (hnodup : t.cols.Nodup)
    (hnn : ∀ r ∈ t.rows, ∀ v ∈ r, isNullV v = false)
    (hiff : t.cols = [] ↔ t.rows = []) :
    stage12 t = t := by
  simp only [stage12]
  rw [keptRows_fixed t hlen hnn hiff, keptColIdx_fixed t hlen hnn hiff]
  rw [dedupIdx_eq_self t.cols (List.range t.cols.length) []
    (by intro j _; simp)
    (by
      apply (List.pairwise_lt_range t.cols.length).imp_of_mem
      intro a b ha hb hab
      have ha' : a < t.cols.length := List.mem_range.mp ha
      have hb' : b < t.cols.length := List.mem_range.mp hb
      rw [List.getD_eq_getElem _ _ ha', List.getD_eq_getElem _ _ hb']
      intro he
      have := (@List.Nodup.getElem_inj_iff _ _ hnodup a ha' b hb').mp he
      omega)]
  cases t with
  | mk cols rows =>
      simp only [Frame.mk.injEq]
      constructor
      · exact map_getD_range cols ""
      · have : ∀ r ∈ rows, (List.range cols.length).map (fun j => cellAt r j) = r := by
          intro r hr
          exact map_cellAt_range r cols.length (hlen r hr)
        calc rows.map (fun r => (List.range cols.length).map (fun j => cellAt r j))
            = rows.map id := List.map_congr_left this
          _ = rows := List.map_id rows

theorem stage3_fixed (t : Frame)
    (hlen : ∀ r ∈ t.rows, r.length = t.cols.length)
    (hnn : ∀ r ∈ t.rows, ∀ v ∈ r, isNullV v = false)
    (hstr : ∀ r ∈ t.rows, ∀ s : String, Value.str s ∈ r → pyStrip s = s)
    (hhomog : ∀ j < t.cols.length,
      (∀ r ∈ t.rows, isStrV (cellAt r j) = true) ∨
      (∀ r ∈ t.rows, isIntV (cellAt r j) = true)) :
    stage3 t = t := by
  unfold stage3
  cases t with
  | mk cols rows =>
      simp only [Frame.mk.injEq, true_and]
      have hcell : ∀ r ∈ rows, ∀ j < cols.length,
          stripFill (rows.any (fun r' => isStrV (cellAt r' j))) (cellAt r j) =
            cellAt r j := by
        intro r hr j hj
        rcases hhomog j hj with hs | hi
        · have hobj : rows.any (fun r' => isStrV (cellAt r' j)) = true := by
            rw [List.any_eq_true]
            exact ⟨r, hr, hs r hr⟩
          rw [hobj]
          have := hs r hr
          cases hv : cellAt r j with
          | null => rw [hv] at this; simp [isStrV] at this
          | int m => rw [hv] at this; simp [isStrV] at this
          | str s =>
              have hmem : Value.str s ∈ r := by
                rw [← hv]
                exact cellAt_mem r j (by rw [hlen r hr]; exact hj)
              simp [stripFill, hstr r hr s hmem]
        · have hobj : rows.any (fun r' => isStrV (cellAt r' j)) = false := by
            rw [List.any_eq_false]
            intro r' hr'
            have := hi r' hr'
            cases hv : cellAt r' j <;> rw [hv] at this <;> simp [isStrV, isIntV] at this ⊢
          rw [hobj]
          have := hi r hr
          cases hv : cellAt r j with
          | null => rw [hv] at this; simp [isIntV] at this
          | str s => rw [hv] at this; simp [isIntV] at this
          | int m => simp [stripFill]
      have : ∀ r ∈ rows,
          (List.range cols.length).map
            (fun j => stripFill (rows.any (fun r' => isStrV (cellAt r' j)))
              (cellAt r j)) = r := by
        intro r hr
        have h1 : (List.range cols.length).map
            (fun j => stripFill (rows.any (fun r' => isStrV (cellAt r' j)))
              (cellAt r j)) =
            (List.range cols.length).map (fun j => cellAt r j) := by
          apply List.map_congr_left
          intro j hj
          exact hcell r hr j (List.mem_range.mp hj)
        rw [h1]
        exact map_cellAt_range r cols.length (hlen r hr)
      calc rows.map _ = rows.map id := List.map_congr_left this
        _ = rows := List.map_id rows

theorem stage4_fixed (t : Frame)
    (hnn : ∀ r ∈ t.rows, ∀ v ∈ r, isNullV v = false)
    (hnan : ∀ r ∈ t.rows, ∀ s : String, Value.str s ∈ r → pyLower s ≠ "nan") :
    stage4 t = t := by
  unfold stage4
  cases t with
  | mk cols rows =>
      simp only [Frame.mk.injEq, true_and]
      have : ∀ r ∈ rows, r.map step4Val = r := by
        intro r hr
        have h1 : ∀ v ∈ r, step4Val v = v := by
          intro v hv
          cases v with
          | null => have := hnn r hr _ hv; simp [isNullV] at this
          | int m => rfl
          | str s => simp [step4Val, hnan r hr s hv]
        calc r.map step4Val = r.map id := List.map_congr_left h1
          _ = r := List.map_id r
      calc rows.map _ = rows.map id := List.map_congr_left this
        _ = rows := List.map_id rows

theorem wnoRows_fixed (j0 : Nat) :
    ∀ rows : List (List Value),
      (∀ r ∈ rows, wnoCell (cellAt r j0) = .ok (cellAt r j0)) →
      (∀ r ∈ rows, j0 < r.length) →
      wnoRows j0 rows = .ok rows := by
  intro rows
  induction rows with
  | nil => intro _ _; rfl
  | cons r rs ih =>
      intro hfix hb
      simp only [wnoRows]
      have h1 : wnoRow j0 r = .ok r := by
        unfold wnoRow
        rw [hfix r (List.mem_cons_self _ _)]
        simp only [Except.map]
        rw [set_cellAt_self r j0 (hb r (List.mem_cons_self _ _))]
      rw [h1, ebind_ok]
      rw [ih (fun x hx => hfix x (List.mem_cons_of_mem _ hx))
        (fun x hx => hb x (List.mem_cons_of_mem _ hx)), ebind_ok]
      rfl

theorem stage5_fixed (t : Frame)
    (hlen : ∀ r ∈ t.rows, r.length = t.cols.length)
    (hwno : "WNO" ∈ t.cols → ∀ r ∈ t.rows,
      wnoCell (cellAt r (t.cols.indexOf "WNO")) =
        .ok (cellAt r (t.cols.indexOf "WNO"))) :
    stage5 t = .ok t := by
  unfold stage5
  by_cases hm : "WNO" ∈ t.cols
  · rw [if_pos hm]
    rw [wnoRows_fixed _ t.rows (hwno hm)
      (fun r hr => by rw [hlen r hr]; exact List.indexOf_lt_length.mpr hm)]
    rfl
  · rw [if_neg hm]

/-- The fixed-point lemma: a frame satisfying the normalized-form
invariants is left untouched by `clean_data`. -/
theorem cleanData_fixed (t : Frame)
    (hlen : ∀ r ∈ t.rows, r.length = t.cols.length)
    (hnodup : t.cols.Nodup)
    (hnn : ∀ r ∈ t.rows, ∀ v ∈ r, isNullV v = false)
    (hstr : ∀ r ∈ t.rows, ∀ s : String, Value.str s ∈ r →
      pyStrip s = s ∧ pyLower s ≠ "nan")
    (hiff : t.cols = [] ↔ t.rows = [])
    (hwno : "WNO" ∈ t.cols → ∀ r ∈ t.rows,
      wnoCell (cellAt r (t.cols.indexOf "WNO")) =
        .ok (cellAt r (t.cols.indexOf "WNO")))
    (hhomog : ∀ j < t.cols.length,
      (∀ r ∈ t.rows, isStrV (cellAt r j) = true) ∨
      (∀ r ∈ t.rows, isIntV (cellAt r j) = true)) :
    cleanData t = .ok t := by
  unfold cleanData
  rw [stage12_fixed t hlen hnodup hnn hiff]
  rw [stage3_fixed t hlen hnn (fun r hr s hs => (hstr r hr s hs).1) hhomog]
  rw [stage4_fixed t hnn (fun r hr s hs => (hstr r hr s hs).2)]
  exact stage5_fixed t hlen hwno

/-! ## Output shape of the normalizer stages -/

theorem dedupIdx_nodup_names (cols : List String) :
    ∀ (js : List Nat) (seen : List String),
      ((dedupIdx cols js seen).map (fun j => cols.getD j "")).Nodup ∧
      (∀ j ∈ dedupIdx cols js seen, cols.getD j "" ∉ seen) := by
  intro js
  induction js with
  | nil => intro seen; exact ⟨List.nodup_nil, by simp [dedupIdx]⟩
  | cons j0 js ih =>
      intro seen
      simp only [dedupIdx]
      split
      · exact ih seen
      · rename_i hns
        obtain ⟨hnd, hseen⟩ := ih (cols.getD j0 "" :: seen)
        constructor
        · rw [List.map_cons, List.nodup_cons]
          constructor
          · intro hmem
            rcases List.mem_map.mp hmem with ⟨j, hj, he⟩
            have := hseen j hj
            rw [he] at this
            exact this (List.mem_cons_self _ _)
          · exact hnd
        · intro j hj
          rcases List.mem_cons.mp hj with rfl | hj
          · exact hns
          · intro hmem
            exact hseen j hj (List.mem_cons_of_mem _ hmem)

theorem dedupIdx_nil_of_empty_seen (cols : List String) :
    ∀ js : List Nat, dedupIdx cols js [] = [] → js = [] := by
  intro js
  cases js with
  | nil => intro _; rfl
  | cons j0 js =>
      intro h
      simp only [dedupIdx] at h
      rw [if_neg (by simp)] at h
      cases h

theorem stage12_props (t : Frame) :
    (∀ r ∈ (stage12 t).rows, r.length = (stage12 t).cols.length) ∧
    (stage12 t).cols.Nodup ∧
    ((stage12 t).cols = [] ↔ (stage12 t).rows = []) := by
  refine ⟨?_, ?_, ?_, ?_⟩
  case refine_1 =>
    intro r hr
    simp only [stage12] at hr ⊢
    rcases List.mem_map.mp hr with ⟨r0, _, rfl⟩
    simp
  case refine_2 =>
    simp only [stage12]
    exact (dedupIdx_nodup_names t.cols _ []).1
  case refine_3 =>
    intro hc
    simp only [stage12] at hc ⊢
    rw [List.map_eq_nil_iff] at hc
    have hkept : keptColIdx t.cols.length (keptRows t) = [] :=
      dedupIdx_nil_of_empty_seen t.cols _ hc
    have hrows : keptRows t = [] := by
      cases hkr : keptRows t with
      | nil => rfl
      | cons r rs =>
          exfalso
          have hrmem : r ∈ keptRows t := by rw [hkr]; exact List.mem_cons_self _ _
          have hany : (List.range t.cols.length).any
              (fun j => !isNullV (cellAt r j)) = true := by
            have := List.mem_filter.mp (show r ∈ t.rows.filter _ from hrmem)
            exact this.2
          rw [List.any_eq_true] at hany
          obtain ⟨j, hj, hnn⟩ := hany
          have : j ∈ keptColIdx t.cols.length (keptRows t) := by
            rw [keptColIdx, List.mem_filter]
            refine ⟨hj, ?_⟩
            rw [List.any_eq_true]
            exact ⟨r, hrmem, hnn⟩
          rw [hkept] at this
          simp at this
    rw [hc, hrows]
    simp
  case refine_4 =>
    intro hr
    simp only [stage12] at hr ⊢
    rw [List.map_eq_nil_iff] at hr
    have hkept : keptColIdx t.cols.length (keptRows t) = [] := by
      rw [keptColIdx, List.filter_eq_nil_iff]
      intro j _
      rw [hr]
      simp
    rw [hkept]
    simp [dedupIdx]

theorem stripFill_true_str (s : String) :
    stripFill true (.str s) = .str (pyStrip s) := rfl

theorem stripFill_true_null : stripFill true .null = .str "" := rfl

theorem stripFill_true_int (m : Int) : stripFill true (.int m) = .str "" := rfl

theorem stripFill_false_null : stripFill false .null = .str "" := rfl

theorem stripFill_false_int (m : Int) : stripFill false (.int m) = .int m := rfl

theorem stripFill_out (u : Frame) (r : List Value) (hr : r ∈ u.rows) (j : Nat) :
    isNullV (stripFill (u.rows.any (fun r' => isStrV (cellAt r' j)))
      (cellAt r j)) = false ∧
    (∀ s, stripFill (u.rows.any (fun r' => isStrV (cellAt r' j)))
      (cellAt r j) = .str s → pyStrip s = s) := by
  by_cases hflag : u.rows.any (fun r' => isStrV (cellAt r' j)) = true
  · rw [hflag]
    cases hv : cellAt r j with
    | str s =>
        rw [stripFill_true_str]
        refine ⟨by simp [isNullV], ?_⟩
        intro s' hs'
        have : s' = pyStrip s := (Value.str.inj hs').symm
        rw [this, pyStrip_idem]
    | null =>
        rw [stripFill_true_null]
        refine ⟨by simp [isNullV], ?_⟩
        intro s' hs'
        have : s' = "" := (Value.str.inj hs').symm
        rw [this]
        rfl
    | int m =>
        rw [stripFill_true_int]
        refine ⟨by simp [isNullV], ?_⟩
        intro s' hs'
        have : s' = "" := (Value.str.inj hs').symm
        rw [this]
        rfl
  · rw [Bool.not_eq_true] at hflag
    rw [hflag]
    have hnostr : isStrV (cellAt r j) = false := by
      rw [List.any_eq_false] at hflag
      have := hflag r hr
      simpa using this
    cases hv : cellAt r j with
    | str s => rw [hv] at hnostr; simp [isStrV] at hnostr
    | null =>
        rw [stripFill_false_null]
        refine ⟨by simp [isNullV], ?_⟩
        intro s' hs'
        have : s' = "" := (Value.str.inj hs').symm
        rw [this]
        rfl
    | int m =>
        rw [stripFill_false_int]
        refine ⟨by simp [isNullV], ?_⟩
        intro s' hs'
        cases hs'

theorem step4Val_out (w : Value) (hw : isNullV w = false)
    (htrim : ∀ s, w = .str s → pyStrip s = s) :
    isNullV (step4Val w) = false ∧
    (∀ s, step4Val w = .str s → pyStrip s = s ∧ pyLower s ≠ "nan") := by
  cases w with
  | null => simp [isNullV] at hw
  | int m =>
      refine ⟨by simp [step4Val, isNullV], ?_⟩
      intro s hs
      cases hs
  | str s0 =>
      by_cases hn : pyLower s0 = "nan"
      · refine ⟨by simp [step4Val, hn, isNullV], ?_⟩
        intro s hs
        simp only [step4Val, hn, if_pos rfl] at hs
        have : s = "" := (Value.str.inj hs).symm
        rw [this]
        exact ⟨rfl, by decide⟩
      · refine ⟨by simp [step4Val, hn, isNullV], ?_⟩
        intro s hs
        simp only [step4Val, if_neg hn] at hs
        have : s = s0 := (Value.str.inj hs).symm
        subst this
        exact ⟨htrim s rfl, hn⟩

theorem stage34_cells (w : Frame) :
    ∀ r ∈ (stage4 (stage3 w)).rows, ∀ x ∈ r, isNullV x = false ∧
      (∀ s, x = .str s → pyStrip s = s ∧ pyLower s ≠ "nan") := by
  intro r hr x hx
  simp only [stage4] at hr
  rcases List.mem_map.mp hr with ⟨r3, hr3, rfl⟩
  rcases List.mem_map.mp hx with ⟨x3, hx3, rfl⟩
  simp only [stage3] at hr3
  rcases List.mem_map.mp hr3 with ⟨r0, hr0, rfl⟩
  rcases List.mem_map.mp hx3 with ⟨j, hj, rfl⟩
  have hout := stripFill_out w r0 hr0 j
  exact step4Val_out _ hout.1 hout.2

theorem stage34_len (w : Frame) :
    ∀ r ∈ (stage4 (stage3 w)).rows, r.length = (stage4 (stage3 w)).cols.length := by
  intro r hr
  simp only [stage4] at hr
  rcases List.mem_map.mp hr with ⟨r3, hr3, rfl⟩
  simp only [stage3] at hr3
  rcases List.mem_map.mp hr3 with ⟨r0, _, rfl⟩
  simp [stage4, stage3]

theorem stage34_rows_nil (w : Frame) :
    (stage4 (stage3 w)).rows = [] ↔ w.rows = [] := by
  simp [stage4, stage3, List.map_eq_nil_iff]

theorem stage34_cols (w : Frame) : (stage4 (stage3 w)).cols = w.cols := rfl

theorem wnoRows_length (j0 : Nat) :
    ∀ rows rows' : List (List Value),
      wnoRows j0 rows = .ok rows' → rows'.length = rows.length := by
  intro rows
  induction rows with
  | nil =>
      intro rows' h
      simp only [wnoRows] at h
      have : rows' = [] := (Except.ok.inj h).symm
      rw [this]
  | cons r rs ih =>
      intro rows' h
      simp only [wnoRows] at h
      cases h1 : wnoRow j0 r with
      | error e => rw [h1, ebind_err] at h; cases h
      | ok r' =>
          rw [h1, ebind_ok] at h
          cases h2 : wnoRows j0 rs with
          | error e => rw [h2, ebind_err] at h; cases h
          | ok rs' =>
              rw [h2, ebind_ok] at h
              have : rows' = r' :: rs' := (Except.ok.inj h).symm
              rw [this, List.length_cons, List.length_cons, ih rs' h2]

theorem wnoRows_mem (j0 : Nat) :
    ∀ rows rows' : List (List Value),
      wnoRows j0 rows = .ok rows' →
      ∀ r' ∈ rows', ∃ r ∈ rows, ∃ w,
        wnoCell (cellAt r j0) = .ok w ∧ r' = r.set j0 w := by
  intro rows
  induction rows with
  | nil =>
      intro rows' h r' hr'
      simp only [wnoRows] at h
      have : rows' = [] := (Except.ok.inj h).symm
      rw [this] at hr'
      simp at hr'
  | cons r rs ih =>
      intro rows' h r' hr'
      simp only [wnoRows] at h
      cases h1 : wnoRow j0 r with
      | error e => rw [h1, ebind_err] at h; cases h
      | ok r1 =>
          rw [h1, ebind_ok] at h
          cases h2 : wnoRows j0 rs with
          | error e => rw [h2, ebind_err] at h; cases h
          | ok rs' =>
              rw [h2, ebind_ok] at h
              have he : rows' = r1 :: rs' := (Except.ok.inj h).symm
              rw [he] at hr'
              rcases List.mem_cons.mp hr' with rfl | hr'
              · unfold wnoRow at h1
                cases hc : wnoCell (cellAt r j0) with
                | error e => rw [hc] at h1; cases h1
                | ok w =>
                    rw [hc] at h1
                    simp only [Except.map] at h1
                    refine ⟨r, List.mem_cons_self _ _, w, hc, ?_⟩
                    exact (Except.ok.inj h1).symm
              · obtain ⟨r0, hr0, w, hw, he'⟩ := ih rs' h2 r' hr'
                exact ⟨r0, List.mem_cons_of_mem _ hr0, w, hw, he'⟩

/-- Every successful `clean_data` output satisfies the normalized-form
invariants (rows match the schema width, deduplicated columns, no missing
values, strings stripped and never `nan`-like, emptiness is consistent,
and `WNO` cells are fixed points of the formatting step). -/
theorem cleanData_props (t u : Frame) (h : cleanData t = .ok u) :
    (∀ r ∈ u.rows, r.length = u.cols.length) ∧
    u.cols.Nodup ∧
    (u.cols = [] ↔ u.rows = []) ∧
    (∀ r ∈ u.rows, ∀ w ∈ r, isNullV w = false ∧
      (∀ s, w = .str s → pyStrip s = s ∧ pyLower s ≠ "nan")) ∧
    ("WNO" ∈ u.cols → ∀ r ∈ u.rows,
      wnoCell (cellAt r (u.cols.indexOf "WNO")) =
        .ok (cellAt r (u.cols.indexOf "WNO"))) := by
  obtain ⟨h12len, h12nodup, h12iff⟩ := stage12_props t
  have hvlen := stage34_len (stage12 t)
  have hvcells := stage34_cells (stage12 t)
  have hvnil := stage34_rows_nil (stage12 t)
  have hvcols := stage34_cols (stage12 t)
  unfold cleanData at h
  unfold stage5 at h
  by_cases hwm : "WNO" ∈ (stage4 (stage3 (stage12 t))).cols
  · rw [if_pos hwm] at h
    cases hw : wnoRows ((stage4 (stage3 (stage12 t))).cols.indexOf "WNO")
        (stage4 (stage3 (stage12 t))).rows with
    | error e => rw [hw] at h; cases h
    | ok rows' =>
        rw [hw] at h
        simp only [Except.map] at h
        have hu : u = ⟨(stage4 (stage3 (stage12 t))).cols, rows'⟩ :=
          (Except.ok.inj h).symm
        subst hu
        have hmem := wnoRows_mem _ _ _ hw
        have hlen' := wnoRows_length _ _ _ hw
        have hj0 : ∀ r ∈ (stage4 (stage3 (stage12 t))).rows,
            (stage4 (stage3 (stage12 t))).cols.indexOf "WNO" < r.length := by
          intro r hr
          rw [hvlen r hr]
          exact List.indexOf_lt_length.mpr hwm
        refine ⟨?_, ?_, ?_, ?_, ?_⟩
        · intro r' hr'
          obtain ⟨r, hr, w, hwc, rfl⟩ := hmem r' hr'
          rw [List.length_set]
          exact hvlen r hr
        · rw [hvcols]
          exact h12nodup
        · constructor
          · intro hc
            rw [hvcols] at hc
            have : (stage12 t).rows = [] := h12iff.mp hc
            have hv0 : (stage4 (stage3 (stage12 t))).rows = [] := hvnil.mpr this
            have := hlen'
            rw [hv0] at this
            simp at this
            exact this
          · intro hc
            simp only at hc
            rw [hc] at hlen'
            simp at hlen'
            have hv0 : (stage4 (stage3 (stage12 t))).rows = [] :=
              List.length_eq_zero.mp hlen'.symm
            have : (stage12 t).rows = [] := hvnil.mp hv0
            rw [hvcols]
            exact h12iff.mpr this
        · intro r' hr' w' hw'
          obtain ⟨r, hr, w, hwc, rfl⟩ := hmem r' hr'
          rcases List.mem_or_eq_of_mem_set hw' with hw'' | rfl
          · exact hvcells r hr w' hw''
          · rcases wnoCell_ok_cases _ _ hwc with rfl | ⟨m, rfl⟩
            · exact hvcells r hr _
                (cellAt_mem r _ (hj0 r hr))
            · refine ⟨by simp [isNullV], ?_⟩
              intro s hs
              have : s = pad3 m := (Value.str.inj hs).symm
              rw [this]
              exact ⟨pyStrip_pad3 m, pyLower_pad3_ne_nan m⟩
        · intro _ r' hr'
          obtain ⟨r, hr, w, hwc, rfl⟩ := hmem r' hr'
          have hcell : cellAt (r.set ((stage4 (stage3 (stage12 t))).cols.indexOf "WNO") w)
              ((stage4 (stage3 (stage12 t))).cols.indexOf "WNO") = w := by
            rw [cellAt, List.getD_eq_getElem _ _
              (by rw [List.length_set]; exact hj0 r hr)]
            rw [List.getElem_set]
            simp
          simp only at hcell ⊢
          rw [hcell]
          exact wnoCell_fix _ _ hwc
  · rw [if_neg hwm] at h
    have hu : u = stage4 (stage3 (stage12 t)) := (Except.ok.inj h).symm
    subst hu
    refine ⟨hvlen, by rw [hvcols]; exact h12nodup, ?_, hvcells, ?_⟩
    · rw [hvcols, hvnil]
      exact h12iff
    · intro hmem
      exact absurd hmem hwm

/-! ## Claim theorems -/

/-- C1 (counterexample): the claim that a slot emits a record whenever its
value is present and non-blank after trimming fails on the numeric value
`0`: the slot `MATNO1 = 0` is non-blank as a string (the spec-side count
is 1), yet the guard `if matno and str(matno).strip():` is falsy and the
matcher emits zero records. -/
theorem claimC1_counterexample :
    specNonBlankSlotCount ["WELD UNIQUE ID", "MATNO1"]
      [Value.str "W1", Value.int 0] = 1 ∧
    matchData ⟨["WELD UNIQUE ID", "MATNO1"], [[Value.str "W1", Value.int 0]]⟩
      ⟨["MATNO"], []⟩ = .ok ([], 0, 0) := by
  constructor
  · decide
  · decide

/-- C1 (amended): with a detail key column present, matching never raises
and emits exactly one record per (row, slot) pair whose slot value passes
the code's guard — Python-truthy AND non-blank after trimming; a row with
k such slots contributes k records and a row with none contributes
zero. -/
theorem claimC1_theorem (w d : Frame) (dk : String)
    (hdk : detailKeyCol d.cols = some dk) :
    ∃ rs mc ms, matchData w d = .ok (rs, mc, ms) ∧
      rs.length = (w.rows.map (fun r =>
        (matnoCols w.cols).countP
          (fun c => slotPass (cellNamed w.cols r c)))).sum := by
  obtain ⟨l, hl, hlen⟩ :=
    matchRows_some_key d.cols d.rows dk w.cols (matnoCols w.cols) w.rows
  refine ⟨l, l.countP (fun mr => mr.2), l.countP (fun mr => !mr.2), ?_, hlen⟩
  unfold matchData
  rw [hdk, hl]
  rfl

/-- C1 (witness): the spec's own end-to-end scenario — slots `A1`, blank,
`B2` — yields exactly two records. -/
theorem claimC1_witness :
    detailKeyCol ["MATNO", "Grade"] = some "MATNO" ∧
    (∃ rs mc ms,
      matchData
        ⟨["WELD UNIQUE ID", "MATNO1", "MATNO2", "MATNO3"],
         [[Value.str "W1", Value.str "A1", Value.str "", Value.str "B2"]]⟩
        ⟨["MATNO", "Grade"],
         [[Value.str "A1", Value.str "X"], [Value.str "C3", Value.str "Y"]]⟩ =
        .ok (rs, mc, ms) ∧
      rs.length =
        ((⟨["WELD UNIQUE ID", "MATNO1", "MATNO2", "MATNO3"],
          [[Value.str "W1", Value.str "A1", Value.str "", Value.str "B2"]]⟩ :
            Frame).rows.map (fun r =>
          (matnoCols ["WELD UNIQUE ID", "MATNO1", "MATNO2", "MATNO3"]).countP
            (fun c => slotPass
              (cellNamed ["WELD UNIQUE ID", "MATNO1", "MATNO2", "MATNO3"] r c)))).sum) :=
  ⟨by decide, claimC1_theorem _ _ "MATNO" (by decide)⟩

/-- C2: for a processed slot, a hit overlays the weld fields with the
first matching detail row's fields (detail wins on collisions, first match
in input order) with `matched = true`; a miss writes the raw slot value
into the detail key column with `matched = false` and raises nothing. -/
theorem claimC2_theorem (dcols : List String) (drows : List (List Value))
    (dk : String) (wdict : Dict) (v : Value) (hp : slotPass v = true) :
    (∀ dr, drows.find? (fun r => pyEq (cellNamed dcols r dk) v) = some dr →
      matchSlot dcols drows (some dk) wdict v =
        .ok (some (pyDictMerge wdict (dictOfRow dcols dr), true)) ∧
      (∀ k, dictGet (pyDictMerge wdict (dictOfRow dcols dr)) k =
        (dictGet (dictOfRow dcols dr) k).or (dictGet wdict k)) ∧
      pyEq (cellNamed dcols dr dk) v = true ∧
      (∃ pre post, drows = pre ++ dr :: post ∧
        ∀ r0 ∈ pre, pyEq (cellNamed dcols r0 dk) v = false)) ∧
    (drows.find? (fun r => pyEq (cellNamed dcols r dk) v) = none →
      matchSlot dcols drows (some dk) wdict v =
        .ok (some (dictInsert wdict dk v, false)) ∧
      dictGet (dictInsert wdict dk v) dk = some v ∧
      (∀ k, k ≠ dk → dictGet (dictInsert wdict dk v) k = dictGet wdict k)) := by
  constructor
  · intro dr hdr
    obtain ⟨hpdr, pre, post, hsplit, hpre⟩ := List.find?_eq_some.mp hdr
    refine ⟨?_, ?_, hpdr, pre, post, hsplit, ?_⟩
    · rw [matchSlot_pass_some _ _ _ _ _ hp, hdr]
    · intro k
      exact dictGet_merge _ _ (nodup_keys_dictOfRow dcols dr) k
    · intro r0 hr0
      have := hpre r0 hr0
      simpa using this
  · intro hdr
    refine ⟨?_, ?_, ?_⟩
    · rw [matchSlot_pass_some _ _ _ _ _ hp, hdr]
    · rw [dictGet_insert]
      simp
    · intro k hk
      rw [dictGet_insert]
      rw [if_neg hk]

/-- C2 (witness): the matched branch at the spec's concrete scenario. -/
theorem claimC2_witness :
    slotPass (Value.str "A1") = true ∧
    matchSlot ["MATNO", "Grade"]
      [[Value.str "A1", Value.str "X"], [Value.str "C3", Value.str "Y"]]
      (some "MATNO")
      (dictOfRow ["WELD UNIQUE ID", "MATNO1"] [Value.str "W1", Value.str "A1"])
      (Value.str "A1") =
      .ok (some (pyDictMerge
        (dictOfRow ["WELD UNIQUE ID", "MATNO1"] [Value.str "W1", Value.str "A1"])
        (dictOfRow ["MATNO", "Grade"] [Value.str "A1", Value.str "X"]), true)) :=
  ⟨by decide,
    ((( claimC2_theorem ["MATNO", "Grade"]
      [[Value.str "A1", Value.str "X"], [Value.str "C3", Value.str "Y"]]
      "MATNO"
      (dictOfRow ["WELD UNIQUE ID", "MATNO1"] [Value.str "W1", Value.str "A1"])
      (Value.str "A1") (by decide)).1)
      [Value.str "A1", Value.str "X"] (by decide)).1⟩

/-- C6 (counterexample): the numeric slot value `10` does not match the
detail key stored as the string `"10"`: the lookup misses and the record
is emitted unmatched, contradicting the claimed string/number-coerced
equality. -/
theorem claimC6_counterexample :
    pyEq (Value.int 10) (Value.str "10") = false ∧
    slotPass (Value.int 10) = true ∧
    matchData ⟨["MATNO1"], [[Value.int 10]]⟩
      ⟨["MATNO", "Grade"], [[Value.str "10", Value.str "G"]]⟩ =
      .ok ([([("MATNO1", Value.int 10), ("MATNO", Value.int 10)], false)], 0, 1) := by
  refine ⟨by decide, by decide, by decide⟩

/-- C6 (amended): the lookup equality is exact same-type Python equality —
numbers match numbers by value and strings match strings, but a number
never matches a string form and vice versa; the lookup succeeds exactly
when some detail row's key is equal under that relation. -/
theorem claimC6_theorem (n m : Int) (s u : String) (dcols : List String)
    (drows : List (List Value)) (dk : String) (v : Value) :
    pyEq (Value.int n) (Value.str s) = false ∧
    pyEq (Value.str s) (Value.int n) = false ∧
    (pyEq (Value.int n) (Value.int m) = true ↔ n = m) ∧
    (pyEq (Value.str s) (Value.str u) = true ↔ s = u) ∧
    ((drows.find? (fun dr => pyEq (cellNamed dcols dr dk) v)).isSome = true ↔
      ∃ dr ∈ drows, pyEq (cellNamed dcols dr dk) v = true) := by
  refine ⟨rfl, rfl, by simp [pyEq], by simp [pyEq], List.find?_isSome⟩

/-- C9 (counterexample): with the weld-unique-id column absent (and slot
columns present), matching is not aborted by any configuration error: the
loop runs and produces a record. -/
theorem claimC9_counterexample :
    weldIdCol ["FOO", "MATNO1", "MATNO2"] = none ∧
    matchData ⟨["FOO", "MATNO1", "MATNO2"],
        [[Value.str "x", Value.str "A", Value.str ""]]⟩
      ⟨["MATNO"], [[Value.str "A"]]⟩ =
      .ok ([([("FOO", Value.str "x"), ("MATNO1", Value.str "A"),
        ("MATNO2", Value.str ""), ("MATNO", Value.str "A")], true)], 1, 0) := by
  refine ⟨by decide, by decide⟩

/-- C9 (amended): no key-column check aborts matching up front.  Missing
slot columns yield a successful empty result; a missing detail `MATNO`
column errors only when (and because) some slot actually passes the guard
during the loop — with no passing slot the run still succeeds with no
records. -/
theorem claimC9_theorem (w d : Frame) :
    (matnoCols w.cols = [] → matchData w d = .ok ([], 0, 0)) ∧
    (detailKeyCol d.cols = none →
      ((∀ r ∈ w.rows, ∀ c ∈ matnoCols w.cols,
          slotPass (cellNamed w.cols r c) = false) →
        matchData w d = .ok ([], 0, 0)) ∧
      ((∃ r ∈ w.rows, ∃ c ∈ matnoCols w.cols,
          slotPass (cellNamed w.cols r c) = true) →
        matchData w d = .error ())) := by
  refine ⟨?_, ?_⟩
  · intro hm
    unfold matchData
    rw [hm, matchRows_empty_mcols]
    rfl
  · intro hdk
    refine ⟨?_, ?_⟩
    · intro hall
      unfold matchData
      rw [hdk, matchRows_no_pass d.cols d.rows none w.cols (matnoCols w.cols)
        w.rows hall]
      rfl
    · intro hex
      unfold matchData
      rw [hdk, matchRows_noKey_err d.cols d.rows w.cols (matnoCols w.cols)
        w.rows hex]
      rfl

/-- C9 (witness): a missing detail `MATNO` column with a passing slot
raises during the loop. -/
theorem claimC9_witness :
    matchData ⟨["MATNO1"], [[Value.str "A"]]⟩ ⟨["FOO"], [[Value.str "A"]]⟩ =
      .error () :=
  (( claimC9_theorem ⟨["MATNO1"], [[Value.str "A"]]⟩
    ⟨["FOO"], [[Value.str "A"]]⟩).2 (by decide)).2 (by decide)

/-- C10: a slot holding a falsy value — numeric `0` as well as the empty
string — emits no record even though `str(0).strip()` is non-blank; a row
all of whose slots are such values contributes zero records. -/
theorem claimC10_theorem (dcols : List String) (drows : List (List Value))
    (dkey : Option String) (wcols : List String) (wrow : List Value)
    (h : ∀ c ∈ matnoCols wcols,
      cellNamed wcols wrow c = Value.int 0 ∨ cellNamed wcols wrow c = Value.str "") :
    matchRow dcols drows dkey wcols wrow (matnoCols wcols) = .ok [] ∧
    slotPass (Value.int 0) = false ∧
    pyStrip (pyStr (Value.int 0)) ≠ "" := by
  refine ⟨?_, by decide, by decide⟩
  apply matchRow_no_pass
  intro c hc
  rcases h c hc with he | he <;> rw [he] <;> decide

/-- C10 (witness): a weld row whose only populated slot holds numeric `0`
contributes zero records. -/
theorem claimC10_witness :
    matchRow ["MATNO"] [[Value.str "0"]] (some "MATNO") ["MATNO1"]
      [Value.int 0] (matnoCols ["MATNO1"]) = .ok [] ∧
    slotPass (Value.int 0) = false ∧
    pyStrip (pyStr (Value.int 0)) ≠ "" :=
  claimC10_theorem ["MATNO"] [[Value.str "0"]] (some "MATNO") ["MATNO1"]
    [Value.int 0] (by decide)

/-- C3: every data cell of a grouped sheet is the linking formula
`='전체'!<column letter><master row position + 2>` — a positional
reference to the same column of the master sheet at the row of the
referenced master record, never a copied literal (each cell starts with
`=`) — and the sheet is exactly the header row followed by one reference
row per sorted master row position, in sorted order. -/
theorem claimC3_theorem (t : Frame) (g : String) (si : List Nat)
    (sh : List (List String)) (hv : materializeView t g = some si)
    (hs : groupSheet t g = some sh) :
    sh = t.cols :: si.map (fun i =>
      (List.range t.cols.length).map (fun c => sheetRef (c + 1) i)) ∧
    (∀ r, r < si.length → ∀ c, c < t.cols.length →
      (sh.getD (r + 1) []).getD c "" = sheetRef (c + 1) (si.getD r 0) ∧
      ((sh.getD (r + 1) []).getD c "").data.head? = some '=') ∧
    sh.length = si.length + 1 ∧
    List.Pairwise (fun i k =>
      leKeys (keyOf t ((sortColsFor t.cols g).map (fun c => t.cols.indexOf c)) i)
        (keyOf t ((sortColsFor t.cols g).map (fun c => t.cols.indexOf c)) k) =
        true) si := by
  have hsh : sh = t.cols :: si.map (fun i =>
      (List.range t.cols.length).map (fun c => sheetRef (c + 1) i)) := by
    unfold groupSheet at hs
    rw [hv] at hs
    simp only [Option.map] at hs
    exact (Option.some.inj hs).symm
  obtain ⟨hg, hsi⟩ := materializeView_some t g si hv
  refine ⟨hsh, ?_, ?_, ?_⟩
  · intro r hr c hc
    rw [hsh]
    rw [List.getD_cons_succ]
    rw [getD_map_lt _ si _ 0 r hr]
    rw [getD_map_lt _ (List.range t.cols.length) _ 0 c (by simpa using hc)]
    rw [getD_range_lt _ _ _ hc]
    exact ⟨rfl, sheetRef_head _ _⟩
  · rw [hsh]
    simp
  · rw [hsi]
    exact stableSort_sorted _ (keyLe_trans t _) (keyLe_total t _) _

/-- C3 (witness): a concrete two-row master. -/
theorem claimC3_witness :
    materializeView ⟨["MATNO", "T"],
      [[Value.str "B", Value.int 3], [Value.str "A", Value.int 1]]⟩ "MATNO" =
      some [1, 0] ∧
    groupSheet ⟨["MATNO", "T"],
      [[Value.str "B", Value.int 3], [Value.str "A", Value.int 1]]⟩ "MATNO" =
      some [["MATNO", "T"], ["='전체'!A3", "='전체'!B3"],
        ["='전체'!A2", "='전체'!B2"]] ∧
    [["MATNO", "T"], ["='전체'!A3", "='전체'!B3"], ["='전체'!A2", "='전체'!B2"]] =
      (⟨["MATNO", "T"],
        [[Value.str "B", Value.int 3], [Value.str "A", Value.int 1]]⟩ : Frame).cols ::
        ([1, 0] : List Nat).map (fun i =>
          (List.range ((⟨["MATNO", "T"],
            [[Value.str "B", Value.int 3], [Value.str "A", Value.int 1]]⟩ :
              Frame)).cols.length).map (fun c => sheetRef (c + 1) i)) :=
  ⟨by decide, by decide,
    ( claimC3_theorem ⟨["MATNO", "T"],
      [[Value.str "B", Value.int 3], [Value.str "A", Value.int 1]]⟩ "MATNO"
      [1, 0] _ (by decide) (by decide)).1⟩

/-- C5: a materialized view has exactly one row per master row whose
grouping-column value is non-blank as a stripped string, and its rows are
in non-decreasing order under the composite key (grouping column first,
then the other declared grouping columns present in the schema, in
declared order). -/
theorem claimC5_theorem (t : Frame) (g : String) (si : List Nat)
    (h : materializeView t g = some si) :
    si.length = t.rows.countP
      (fun r => pyStrip (pyStr (cellAt r (t.cols.indexOf g))) ≠ "") ∧
    List.Pairwise (fun i k =>
      leKeys (keyOf t ((sortColsFor t.cols g).map (fun c => t.cols.indexOf c)) i)
        (keyOf t ((sortColsFor t.cols g).map (fun c => t.cols.indexOf c)) k) =
        true) si := by
  obtain ⟨hg, hsi⟩ := materializeView_some t g si h
  constructor
  · rw [hsi]
    unfold stableSort
    rw [stableSort_length]
    simp only [List.length_nil, Nat.zero_add]
    unfold filteredIdx
    rw [← List.countP_eq_length_filter]
    exact countP_range_getD t.rows []
      (fun r => decide (pyStrip (pyStr (cellAt r (t.cols.indexOf g))) ≠ ""))
  · rw [hsi]
    exact stableSort_sorted _ (keyLe_trans t _) (keyLe_total t _) _

/-- C5 (witness): a concrete master with one blank grouping cell. -/
theorem claimC5_witness :
    materializeView ⟨["MATNO", "Grade", "T"],
      [[Value.str "B", Value.str "g2", Value.int 3],
       [Value.str "", Value.str "g0", Value.int 9],
       [Value.str "A", Value.str "g1", Value.int 5],
       [Value.str "A", Value.str "g0", Value.int 1]]⟩ "MATNO" =
      some [3, 2, 0] ∧
    ([3, 2, 0] : List Nat).length =
      (⟨["MATNO", "Grade", "T"],
        [[Value.str "B", Value.str "g2", Value.int 3],
         [Value.str "", Value.str "g0", Value.int 9],
         [Value.str "A", Value.str "g1", Value.int 5],
         [Value.str "A", Value.str "g0", Value.int 1]]⟩ : Frame).rows.countP
        (fun r => pyStrip (pyStr (cellAt r
          ((⟨["MATNO", "Grade", "T"],
            [[Value.str "B", Value.str "g2", Value.int 3],
             [Value.str "", Value.str "g0", Value.int 9],
             [Value.str "A", Value.str "g1", Value.int 5],
             [Value.str "A", Value.str "g0", Value.int 1]]⟩ : Frame).cols.indexOf
              "MATNO"))) ≠ "") :=
  ⟨by decide,
    ( claimC5_theorem ⟨["MATNO", "Grade", "T"],
      [[Value.str "B", Value.str "g2", Value.int 3],
       [Value.str "", Value.str "g0", Value.int 9],
       [Value.str "A", Value.str "g1", Value.int 5],
       [Value.str "A", Value.str "g0", Value.int 1]]⟩ "MATNO" [3, 2, 0]
      (by decide)).1⟩

/-- C4 (counterexample): normalization is not idempotent.  A column mixing
a missing value with an integer normalizes to a mix of the empty string
and the integer; the second pass sees an object-dtype column, its
`.str.strip()` turns the integer into NaN, and `fillna('')` blanks it —
so `normalize(normalize(x)) ≠ normalize(x)`. -/
theorem claimC4_counterexample :
    cleanData ⟨["A", "B"],
      [[Value.str "x", Value.null], [Value.str "y", Value.int 5]]⟩ =
      .ok ⟨["A", "B"],
        [[Value.str "x", Value.str ""], [Value.str "y", Value.int 5]]⟩ ∧
    cleanData ⟨["A", "B"],
      [[Value.str "x", Value.str ""], [Value.str "y", Value.int 5]]⟩ =
      .ok ⟨["A", "B"],
        [[Value.str "x", Value.str ""], [Value.str "y", Value.str ""]]⟩ ∧
    (⟨["A", "B"], [[Value.str "x", Value.str ""], [Value.str "y", Value.str ""]]⟩ :
        Frame) ≠
      ⟨["A", "B"], [[Value.str "x", Value.str ""], [Value.str "y", Value.int 5]]⟩ := by
  refine ⟨by decide, by decide, by decide⟩

/-- C4 (amended): normalization is idempotent on every output whose
columns are type-homogeneous (each column all-strings or all-integers);
the non-idempotence is exactly the mixed-type columns blanked by the
second pass. -/
theorem claimC4_theorem (t t' : Frame) (h : cleanData t = .ok t')
    (hhomog : ∀ j < t'.cols.length,
      (∀ r ∈ t'.rows, isStrV (cellAt r j) = true) ∨
      (∀ r ∈ t'.rows, isIntV (cellAt r j) = true)) :
    cleanData t' = .ok t' := by
  obtain ⟨h1, h2, h3, h4, h5⟩ := cleanData_props t t' h
  exact cleanData_fixed t' h1 h2
    (fun r hr v hv => (h4 r hr v hv).1)
    (fun r hr s hs => ((h4 r hr _ hs).2 s rfl))
    h3 h5 hhomog

/-- C4 (witness): a homogeneous output is a fixed point. -/
theorem claimC4_witness :
    cleanData ⟨["A", "WNO"], [[Value.str " x ", Value.int 7]]⟩ =
      .ok ⟨["A", "WNO"], [[Value.str "x", Value.str "007"]]⟩ ∧
    cleanData ⟨["A", "WNO"], [[Value.str "x", Value.str "007"]]⟩ =
      .ok ⟨["A", "WNO"], [[Value.str "x", Value.str "007"]]⟩ :=
  ⟨by decide,
    claimC4_theorem ⟨["A", "WNO"], [[Value.str " x ", Value.int 7]]⟩
      ⟨["A", "WNO"], [[Value.str "x", Value.str "007"]]⟩ (by decide) (by decide)⟩

/-- C7 (counterexample): normalization is not total and has no per-cell
string fallback: the `WNO` cell `"1.2.3"` passes the digit pre-check
(dots and signs removed leave `"123"`), `float("1.2.3")` raises, and the
whole `clean_data` call aborts with the error instead of recovering. -/
theorem claimC7_counterexample :
    digitOk (Value.str "1.2.3") = true ∧
    pyFloatOf (Value.str "1.2.3") = none ∧
    cleanData ⟨["WNO"], [[Value.str "1.2.3"]]⟩ = .error () := by
  refine ⟨by decide, by decide, by decide⟩

/-- C7 (amended): the only failure point of normalization is the `WNO`
formatting step's `float()` call — for every table without a `WNO`
column, normalization succeeds. -/
theorem claimC7_theorem (t : Frame) (h : "WNO" ∉ t.cols) :
    ∃ t', cleanData t = .ok t' :=
  cleanData_ok_of_no_wno t h

/-- C7 (witness): a `WNO`-free table always normalizes. -/
theorem claimC7_witness :
    ("WNO" ∉ (⟨["A", "B"], [[Value.str " x ", Value.null]]⟩ : Frame).cols) ∧
    (∃ t', cleanData ⟨["A", "B"], [[Value.str " x ", Value.null]]⟩ = .ok t') :=
  ⟨by decide, claimC7_theorem ⟨["A", "B"], [[Value.str " x ", Value.null]]⟩ (by decide)⟩

/-- C8 (counterexample): the validator does not resolve sampled rows by
`MATNO` when it is present — it uses `WELD UNIQUE ID` whenever that column
exists.  On a master whose two rows share `MATNO = "M1"` but differ in
`T`, the run reports full consistency (resolving the sample to the second
row by its weld id), although resolution by `MATNO` — what the claim
prescribes — would pick the first row, whose checked field `T`
differs. -/
theorem claimC8_counterexample :
    vKeyCol ["WELD UNIQUE ID", "MATNO", "T"] = "WELD UNIQUE ID" ∧
    "MATNO" ∈ ["WELD UNIQUE ID", "MATNO", "T"] ∧
    specResolveKey ["WELD UNIQUE ID", "MATNO", "T"] "MATNO" = "MATNO" ∧
    vKeyCol ["WELD UNIQUE ID", "MATNO", "T"] ≠
      specResolveKey ["WELD UNIQUE ID", "MATNO", "T"] "MATNO" ∧
    validateSheet ["WELD UNIQUE ID", "MATNO", "T"]
      [dictOfRow ["WELD UNIQUE ID", "MATNO", "T"]
        [Value.str "W0", Value.str "M1", Value.int 1],
       dictOfRow ["WELD UNIQUE ID", "MATNO", "T"]
        [Value.str "W2", Value.str "M1", Value.int 2]]
      [dictOfRow ["WELD UNIQUE ID", "MATNO", "T"]
        [Value.str "W2", Value.str "M1", Value.int 2],
       dictOfRow ["WELD UNIQUE ID", "MATNO", "T"]
        [Value.str "W2", Value.str "M1", Value.int 2]]
      "MATNO" = some (.ok (true, true, 0)) ∧
    resolveMaster
      [dictOfRow ["WELD UNIQUE ID", "MATNO", "T"]
        [Value.str "W0", Value.str "M1", Value.int 1],
       dictOfRow ["WELD UNIQUE ID", "MATNO", "T"]
        [Value.str "W2", Value.str "M1", Value.int 2]]
      "MATNO" (Value.str "M1") =
      some (dictOfRow ["WELD UNIQUE ID", "MATNO", "T"]
        [Value.str "W0", Value.str "M1", Value.int 1]) ∧
    pyStrip (pyStr (dictGetD (dictOfRow ["WELD UNIQUE ID", "MATNO", "T"]
        [Value.str "W0", Value.str "M1", Value.int 1]) "T")) ≠
      pyStrip (pyStr (dictGetD (dictOfRow ["WELD UNIQUE ID", "MATNO", "T"]
        [Value.str "W2", Value.str "M1", Value.int 2]) "T")) := by
  refine ⟨by decide, by decide, by decide, by decide, by decide, by decide,
    by decide⟩

/-- C8 (amended): when the counts match and the sheet is non-empty, the
validator samples exactly the first, middle and last positions
`[0, n/2, n-1]` and resolves each sampled row by `WELD UNIQUE ID` when
that column is in the schema and by `MATNO` otherwise — never by the
view's grouping column. -/
theorem claimC8_theorem (headers : List String) (dfAll dfGroup : List Dict)
    (sheetName ac : String) (hac : actualColOf headers sheetName = some ac)
    (hcm : dfGroup.length =
      (dfAll.filter (fun r => pyStrip (pyStr (dictGetD r ac)) ≠ "")).length)
    (hne : dfGroup ≠ []) :
    validateSheet headers dfAll dfGroup sheetName =
      some ((checkSamples headers dfAll dfGroup (vKeyCol headers)
        [ac, "WEIGHT", "T", "B"] (sampleIdxs dfGroup.length) (true, 0)).map
          (fun p => (true, p.1, p.2))) ∧
    sampleIdxs dfGroup.length = [0, dfGroup.length / 2, dfGroup.length - 1] ∧
    vKeyCol headers =
      (if "WELD UNIQUE ID" ∈ headers then "WELD UNIQUE ID" else "MATNO") := by
  refine ⟨?_, rfl, rfl⟩
  unfold validateSheet
  rw [hac]
  simp only []
  have hcmb : (dfGroup.length ==
      (dfAll.filter (fun r => pyStrip (pyStr (dictGetD r ac)) ≠ "")).length) =
      true := beq_iff_eq.mpr hcm
  simp only [hcmb]
  rw [if_pos (by simp [hne])]

/-- C8 (witness): a consistent concrete run through the amended shape. -/
theorem claimC8_witness :
    validateSheet ["MATNO", "T"]
      [dictOfRow ["MATNO", "T"] [Value.str "M1", Value.int 1]]
      [dictOfRow ["MATNO", "T"] [Value.str "M1", Value.int 1]]
      "MATNO" =
      some ((checkSamples ["MATNO", "T"]
        [dictOfRow ["MATNO", "T"] [Value.str "M1", Value.int 1]]
        [dictOfRow ["MATNO", "T"] [Value.str "M1", Value.int 1]]
        (vKeyCol ["MATNO", "T"]) ["MATNO", "WEIGHT", "T", "B"]
        (sampleIdxs 1) (true, 0)).map (fun p => (true, p.1, p.2))) :=
  ( claimC8_theorem ["MATNO", "T"]
    [dictOfRow ["MATNO", "T"] [Value.str "M1", Value.int 1]]
    [dictOfRow ["MATNO", "T"] [Value.str "M1", Value.int 1]]
    "MATNO" "MATNO" (by decide) (by decide) (by decide)).1
